import Mathlib

/-! Document store: chained hash table, equality / range indexes, collection manager.

A shallow embedding of `include/hash_map.hpp` and `src/collection.cpp`.

Conventions of the embedding

* `std::string` is a Lean `String`; the hash runs over its UTF-8 bytes.
* `size_t` / `uint64_t` values are natural numbers; the 64-bit wrap-around is
  written out where the source can reach it (`str_hash`, `--size_`).
* `double` values are exact rationals (`ℚ`): every finite double is a rational
  and the comparisons of the source are order comparisons. The one `double`
  operation of the source, the division in `put`, is exact for power-of-two
  bucket counts; the occupancy statements are made for those (see `grow`).
* A mutating member function returns the new object state; a member function
  that can throw returns its outcome together with the state it leaves behind.
* `std::unordered_map` is an association list; its (unspecified) iteration
  order is the list order.
* A bucket vector of length zero makes `bucket_index` divide by zero in the
  source; the statements below assume at least one bucket wherever they rely
  on an index being in range.
-/

namespace NoSql

/-! ## Structured values (`nlohmann::json`) -/

/-- The structured-value type: `null`, booleans, numbers, strings, arrays and
objects. An object is its member list in key order. -/
inductive Json where
  | null
  | bool (b : Bool)
  | num (x : ℚ)
  | str (s : String)
  | arr (xs : List Json)
  | obj (ms : List (String × Json))

mutual
/-- Decision procedure for equality of structured values. -/
def Json.decEq : (a b : Json) → Decidable (a = b)
  | .null, .null => isTrue rfl
  | .bool a, .bool b =>
    if h : a = b then isTrue (by rw [h]) else isFalse (by intro e; cases e; exact h rfl)
  | .num a, .num b =>
    if h : a = b then isTrue (by rw [h]) else isFalse (by intro e; cases e; exact h rfl)
  | .str a, .str b =>
    if h : a = b then isTrue (by rw [h]) else isFalse (by intro e; cases e; exact h rfl)
  | .arr a, .arr b =>
    match Json.decEqList a b with
    | isTrue h => isTrue (by rw [h])
    | isFalse h => isFalse (by intro e; cases e; exact h rfl)
  | .obj a, .obj b =>
    match Json.decEqMembers a b with
    | isTrue h => isTrue (by rw [h])
    | isFalse h => isFalse (by intro e; cases e; exact h rfl)
  | .null, .bool _ | .null, .num _ | .null, .str _ | .null, .arr _ | .null, .obj _
  | .bool _, .null | .bool _, .num _ | .bool _, .str _ | .bool _, .arr _ | .bool _, .obj _
  | .num _, .null | .num _, .bool _ | .num _, .str _ | .num _, .arr _ | .num _, .obj _
  | .str _, .null | .str _, .bool _ | .str _, .num _ | .str _, .arr _ | .str _, .obj _
  | .arr _, .null | .arr _, .bool _ | .arr _, .num _ | .arr _, .str _ | .arr _, .obj _
  | .obj _, .null | .obj _, .bool _ | .obj _, .num _ | .obj _, .str _ | .obj _, .arr _ =>
    isFalse (by intro e; cases e)
/-- Decision procedure for equality of arrays of structured values. -/
def Json.decEqList : (a b : List Json) → Decidable (a = b)
  | [], [] => isTrue rfl
  | [], _ :: _ | _ :: _, [] => isFalse (by intro e; cases e)
  | x :: xs, y :: ys =>
    match Json.decEq x y, Json.decEqList xs ys with
    | isTrue h1, isTrue h2 => isTrue (by rw [h1, h2])
    | isFalse h, _ => isFalse (by intro e; cases e; exact h rfl)
    | _, isFalse h => isFalse (by intro e; cases e; exact h rfl)
/-- Decision procedure for equality of member lists. -/
def Json.decEqMembers : (a b : List (String × Json)) → Decidable (a = b)
  | [], [] => isTrue rfl
  | [], _ :: _ | _ :: _, [] => isFalse (by intro e; cases e)
  | (k, x) :: xs, (l, y) :: ys =>
    if hk : k = l then
      match Json.decEq x y, Json.decEqMembers xs ys with
      | isTrue h1, isTrue h2 => isTrue (by rw [hk, h1, h2])
      | isFalse h, _ => isFalse (by intro e; cases e; exact h rfl)
      | _, isFalse h => isFalse (by intro e; cases e; exact h rfl)
    else isFalse (by intro e; cases e; exact hk rfl)
end

instance : DecidableEq Json := Json.decEq

instance {ε α : Type} [DecidableEq ε] [DecidableEq α] : DecidableEq (Except ε α)
  | .ok a, .ok b =>
    if h : a = b then isTrue (by rw [h]) else isFalse (by intro e; cases e; exact h rfl)
  | .error a, .error b =>
    if h : a = b then isTrue (by rw [h]) else isFalse (by intro e; cases e; exact h rfl)
  | .ok _, .error _ => isFalse (by intro e; cases e)
  | .error _, .ok _ => isFalse (by intro e; cases e)

/-- First value stored under `key` in an association list (`find` on a map,
or the scan `for (p : chain) if (p.first == key)` of a chain). -/
def scan {V : Type} : List (String × V) → String → Option V
  | [], _ => none
  | p :: ps, key => if p.1 = key then some p.2 else scan ps key

/-- The assignment `j[key] = value` on the member list of an object
(`std::map`: replace the value of an existing key, else insert in key order;
`std::string` order is the byte order, which on UTF-8 is code-point order). -/
def setMember : List (String × Json) → String → Json → List (String × Json)
  | [], k, v => [(k, v)]
  | p :: ps, k, v =>
    if p.1 = k then (k, v) :: ps
    else if k.data < p.1.data then (k, v) :: p :: ps
    else p :: setMember ps k v

namespace Json

/-- The test `is_object()`. -/
def is_object : Json → Bool
  | .obj _ => true
  | _ => false

/-- The test `is_number()`. -/
def is_number : Json → Bool
  | .num _ => true
  | _ => false

/-- The test `contains(key)`: true only for an object that has the key. -/
def contains : Json → String → Bool
  | .obj ms, key => (scan ms key).isSome
  | _, _ => false

/-- The access `j[key]`: the member stored under the key; `null` when there is
none (the non-const `operator[]` of an object then creates a null member). -/
def get : Json → String → Json
  | .obj ms, key => (scan ms key).getD .null
  | _, _ => .null

/-- The values a range-`for` over a structured value visits: the elements of
an array, the member values of an object, nothing for `null`, and the value
itself for a primitive. -/
def elems : Json → List Json
  | .arr xs => xs
  | .obj ms => ms.map Prod.snd
  | .null => []
  | j => [j]

/-- The conversion `get<double>()`: the number, or a type error. -/
def get_double : Json → Except String ℚ
  | .num x => .ok x
  | _ => .error "type must be number"

/-- The conversion `get<std::string>()`: the string, or a type error. -/
def get_string : Json → Except String String
  | .str s => .ok s
  | _ => .error "type must be string"

end Json

/-! ## The chained hash table (`hash_map.hpp`) -/

/-- UTF-8 bytes of one character. -/
def utf8 (c : Char) : List Nat :=
  let n := c.toNat
  if n < 0x80 then [n]
  else if n < 0x800 then [0xC0 + n / 64, 0x80 + n % 64]
  else if n < 0x10000 then [0xE0 + n / 4096, 0x80 + (n / 64) % 64, 0x80 + n % 64]
  else [0xF0 + n / 262144, 0x80 + (n / 4096) % 64, 0x80 + (n / 64) % 64, 0x80 + n % 64]

/-- One round of the loop body of `str_hash` on the byte `c` (64-bit
arithmetic). -/
def mix (h c : Nat) : Nat :=
  let h1 := h ^^^ c
  let h2 := (h1 * 1099511628211) % 2 ^ 64
  let h3 := h2 ^^^ (h2 >>> 33)
  let h4 := (h3 * 0xff51afd7ed558ccd) % 2 ^ 64
  h4 ^^^ (h4 >>> 33)

/-- The hash `HashMap::str_hash`. -/
def str_hash (s : String) : Nat :=
  (s.data.flatMap utf8).foldl mix 1469598103934665603

/-- The class `HashMap<V>`: bucket vector, `size_` and `max_load_factor`. -/
structure HashMap (V : Type) where
  buckets : List (List (String × V))
  size_ : Nat
  max_load_factor : ℚ

namespace HashMap

variable {V : Type}

/-- The constructor `HashMap(init_buckets, max_load)`. -/
def new (init_buckets : Nat) (max_load : ℚ) : HashMap V :=
  { buckets := List.replicate init_buckets [], size_ := 0, max_load_factor := max_load }

/-- The index `bucket_index(key)`. -/
def bucket_index (m : HashMap V) (key : String) : Nat :=
  str_hash key % m.buckets.length

/-- The redistribution `rehash(new_buckets)`: every entry, in bucket order then
chain order, is pushed to the back of its new chain. -/
def rehash (m : HashMap V) (new_buckets : Nat) : HashMap V :=
  { m with
    buckets :=
      m.buckets.foldl
        (fun t chain =>
          chain.foldl (fun t p => t.modify (fun c => c ++ [p]) (str_hash p.1 % new_buckets)) t)
        (List.replicate new_buckets []) }

/-- The loop of `put` over a chain: overwrite the value of the first entry
with this key; `none` when the key is not in the chain. -/
def assign : List (String × V) → String → V → Option (List (String × V))
  | [], _, _ => none
  | p :: ps, key, value =>
    if p.1 = key then some ((p.1, value) :: ps)
    else (assign ps key value).map (fun c => p :: c)

/-- The head of `put`: when `(double)(size_ + 1) / buckets.size()` exceeds
`max_load_factor`, the bucket count is doubled by `rehash`.

The quotient is taken exactly. The source divides in `double`, and the two
agree whenever the bucket count is a power of two and the table holds fewer
than 2^53 entries: both operands and the quotient are then binary fractions
with at most 53 significant bits, so nothing is rounded, and the comparison
with `max_load_factor` is an order comparison of two `double` values. For any
other bucket count the source compares the quotient rounded to the nearest
`double` (with 3 buckets and `max_load_factor = 1.0 / 3.0` the rounded `1.0 / 3`
equals the load factor and the source does not rehash), which this definition
does not represent. The statements that depend on which branch is taken are
therefore made for power-of-two bucket counts only; every other statement
about `put` is proved for both branches. -/
def grow (m : HashMap V) : HashMap V :=
  if m.max_load_factor < ((m.size_ + 1 : Nat) : ℚ) / (m.buckets.length : ℚ) then
    m.rehash (m.buckets.length * 2)
  else m

/-- The rest of `put`: overwrite the value in the chain of the key, or push a
new entry to the back of the chain and count it. -/
def place (m : HashMap V) (key : String) (value : V) : HashMap V :=
  let idx := m.bucket_index key
  match assign (m.buckets.getD idx []) key value with
  | some chain => { m with buckets := m.buckets.set idx chain }
  | none =>
    { m with
      buckets := m.buckets.modify (fun c => c ++ [(key, value)]) idx
      size_ := m.size_ + 1 }

/-- The member function `put(key, value)`. -/
def put (m : HashMap V) (key : String) (value : V) : HashMap V :=
  (grow m).place key value

/-- The member function `get(key, out)`: `some v` for `true` with `out = v`,
`none` for `false`. -/
def get (m : HashMap V) (key : String) : Option V :=
  scan (m.buckets.getD (m.bucket_index key) []) key

/-- The loop of `remove` over a chain: erase the first entry with this key;
`none` when the key is not in the chain. -/
def eraseKey : List (String × V) → String → Option (List (String × V))
  | [], _ => none
  | p :: ps, key =>
    if p.1 = key then some ps
    else (eraseKey ps key).map (fun c => p :: c)

/-- The decrement `--size_` on a 64-bit `size_t`. -/
def decr (n : Nat) : Nat := if n = 0 then 2 ^ 64 - 1 else n - 1

/-- The member function `remove(key)`: the returned flag and the new table. -/
def remove (m : HashMap V) (key : String) : Bool × HashMap V :=
  let idx := m.bucket_index key
  match eraseKey (m.buckets.getD idx []) key with
  | some chain => (true, { m with buckets := m.buckets.set idx chain, size_ := decr m.size_ })
  | none => (false, m)

/-- The member function `items()`. -/
def items (m : HashMap V) : List (String × V) := m.buckets.flatten

/-- The member function `size()`. -/
def size (m : HashMap V) : Nat := m.size_

/-- The member function `to_json()` of `HashMap<json>`. -/
def to_json (m : HashMap Json) : Json :=
  .obj (m.buckets.foldl
    (fun j chain => chain.foldl (fun j p => setMember j p.1 p.2) j) [])

/-- The member function `from_json(j)` of `HashMap<json>`: the table is reset
to 16 empty buckets, then every member is `put`. The iterator's `key()` throws
on the first element of anything that is not an object; the table is then left
reset. -/
def from_json (m : HashMap Json) (j : Json) : Except String Unit × HashMap Json :=
  let m0 : HashMap Json := { m with buckets := List.replicate 16 [], size_ := 0 }
  match j with
  | .obj ms => (.ok (), ms.foldl (fun t p => t.put p.1 p.2) m0)
  | .null => (.ok (), m0)
  | .arr [] => (.ok (), m0)
  | _ => (.error "cannot use key() for non-object iterators", m0)

/-- Tables reachable from a constructed (empty) table with at least one bucket
by `put`, `remove` and `from_json`. -/
inductive Reachable : HashMap Json → Prop
  | new (n : Nat) (L : ℚ) (h : 0 < n) : Reachable (HashMap.new n L)
  | put {m : HashMap Json} (k : String) (v : Json) (h : Reachable m) : Reachable (m.put k v)
  | remove {m : HashMap Json} (k : String) (h : Reachable m) : Reachable (m.remove k).2
  | from_json {m : HashMap Json} (j : Json) (h : Reachable m) : Reachable (m.from_json j).2

/-- Tables reachable from the default-constructed `HashMap()` (16 buckets,
load factor 0.75) by `put`, `remove` and `from_json`. -/
inductive ReachableDefault : HashMap Json → Prop
  | new : ReachableDefault (HashMap.new 16 (3 / 4))
  | put {m : HashMap Json} (k : String) (v : Json) (h : ReachableDefault m) :
      ReachableDefault (m.put k v)
  | remove {m : HashMap Json} (k : String) (h : ReachableDefault m) :
      ReachableDefault (m.remove k).2
  | from_json {m : HashMap Json} (j : Json) (h : ReachableDefault m) :
      ReachableDefault (m.from_json j).2

/-- Every entry sits in the chain its key hashes to. -/
def Placed (bs : List (List (String × V))) : Prop :=
  ∀ i c, bs[i]? = some c → ∀ p ∈ c, str_hash p.1 % bs.length = i

/-- Representation invariant of a table: at least one bucket, every entry in
the chain of its hash, no key twice, and `size_` counting the entries. -/
structure Inv (m : HashMap V) : Prop where
  pos : 0 < m.buckets.length
  placed : Placed m.buckets
  nodup : (m.items.map Prod.fst).Nodup
  count : m.size_ = m.items.length

end HashMap

/-! ## The ordered index (`btree_index.hpp`) -/

/-- Modelled from the spec: the implementation of `BTreeIndex`
(`btree_index.cpp`; only the declarations in `btree_index.hpp` are among the
sources). The model keeps the observable contract of the ordered index: the
keys in ascending order, each with its posting list in insertion order. The
node layout (minimum degree, splits) is not represented. -/
structure BTreeIndex where
  entries : List (ℚ × List String)
  deriving DecidableEq

namespace BTreeIndex

/-- Modelled from the spec: the insertion into the key sequence behind
`BTreeIndex::insert`: an existing key gets the id appended to its postings,
a new key is placed at its sorted position with the posting list `[id]`. -/
def insertEntry : List (ℚ × List String) → ℚ → String → List (ℚ × List String)
  | [], key, id => [(key, [id])]
  | e :: es, key, id =>
    if e.1 = key then (e.1, e.2 ++ [id]) :: es
    else if key < e.1 then (key, [id]) :: e :: es
    else e :: insertEntry es key id

/-- Modelled from the spec: the missing `BTreeIndex::insert(key, id)`. -/
def insert (bt : BTreeIndex) (key : ℚ) (id : String) : BTreeIndex :=
  { entries := insertEntry bt.entries key id }

/-- Modelled from the spec: the missing `BTreeIndex::search(key)`: the posting
list at an exact match, the empty sequence if the key is absent. -/
def search (bt : BTreeIndex) (key : ℚ) : List String :=
  match bt.entries.find? (fun e => e.1 = key) with
  | some e => e.2
  | none => []

/-- Modelled from the spec: the missing `BTreeIndex::rangeSearch(low, high,
includeLow, includeHigh)`: the postings of every key inside the bounds, in
ascending key order. -/
def rangeSearch (bt : BTreeIndex) (low high : ℚ) (includeLow includeHigh : Bool) :
    List String :=
  (bt.entries.filter (fun e =>
    (if includeLow then decide (low ≤ e.1) else decide (low < e.1)) &&
    (if includeHigh then decide (e.1 ≤ high) else decide (e.1 < high)))).flatMap Prod.snd

end BTreeIndex

/-! ## The collection manager (`collection.cpp`) -/

/-- The assignment `m[key] = value` on an `unordered_map`. -/
def assocSet {β : Type} : List (String × β) → String → β → List (String × β)
  | [], k, v => [(k, v)]
  | p :: ps, k, v => if p.1 = k then (k, v) :: ps else p :: assocSet ps k v

/-- An update through the reference `m[key]` of an `unordered_map`; an absent
key is first created with the default value `dflt`. -/
def assocUpdate {β : Type} (dflt : β) (f : β → β) : List (String × β) → String → List (String × β)
  | [], k => [(k, f dflt)]
  | p :: ps, k => if p.1 = k then (p.1, f p.2) :: ps else p :: assocUpdate dflt f ps k

/-- The collaborators of `collection.cpp` that are outside the repository's
core: the predicate evaluator `evaluate_query`, the stream rendering of a
`double` (`oss << x`) and the textual dump of a structured value. -/
structure Env where
  evaluate_query : Json → Json → Bool
  fmt_double : ℚ → String
  dump : Json → String

/-- The state of a `Collection`: document table, equality indexes
(`indexes`) and range indexes (`btree_indexes`). -/
structure Collection where
  store : HashMap Json
  indexes : List (String × List (String × List String))
  btree_indexes : List (String × BTreeIndex)

namespace Collection

/-- A collection constructed over a directory that holds no files: the
default-constructed table (16 buckets, load factor 0.75) and no index. -/
def empty : Collection :=
  { store := HashMap.new 16 (3 / 4), indexes := [], btree_indexes := [] }

/-- The encoding `index_key_for_value(v)`. -/
def index_key_for_value (env : Env) : Json → String
  | .str s => "s:" ++ s
  | .num x => "n:" ++ env.fmt_double x
  | .bool b => "b:" ++ (if b then "1" else "0")
  | v => "j:" ++ env.dump v

/-- The member function `insert(doc)`; `id` is the value `gen_id()` returns
for this call. The outcome comes with the state the call leaves. -/
def insert (env : Env) (c : Collection) (id : String) (doc : Json) :
    Except String String × Collection :=
  match doc with
  | .obj ms =>
    let doc1 : Json := .obj (setMember ms "_id" (.str id))
    let store1 := c.store.put id doc1
    let indexes1 := c.indexes.map (fun p =>
      if doc1.contains p.1 then
        (p.1, assocUpdate [] (fun ids => ids ++ [id]) p.2
          (index_key_for_value env (doc1.get p.1)))
      else p)
    let btrees1 := c.btree_indexes.map (fun p =>
      match doc1.contains p.1, doc1.get p.1 with
      | true, .num x => (p.1, p.2.insert x id)
      | _, _ => p)
    (.ok id, { store := store1, indexes := indexes1, btree_indexes := btrees1 })
  | _ => (.error "Document must be an object", c)

/-- The guard `query.is_object() && query.size() == 1 && !query.contains("$or")`
of `find`, with the field and condition `query.begin()` points to. -/
def singleField : Json → Option (String × Json)
  | .obj [(field, cond)] => if field = "$or" then none else some (field, cond)
  | _ => none

/-- The loops `for (id : ids) if (store.get(id, d)) res.push_back(d)`. -/
def fetch (store : HashMap Json) (ids : List String) : List Json :=
  ids.filterMap (fun id => store.get id)

/-- The id list the range-index branch of `find` computes from the condition. -/
def rangeIds (bt : BTreeIndex) (cond : Json) : Except String (List String) :=
  if cond.contains "$eq" then do
    let x ← (cond.get "$eq").get_double
    pure (bt.search x)
  else if cond.contains "$gt" && cond.contains "$lt" then do
    let lo ← (cond.get "$gt").get_double
    let hi ← (cond.get "$lt").get_double
    pure (bt.rangeSearch lo hi false false)
  else if cond.contains "$gt" then do
    let lo ← (cond.get "$gt").get_double
    pure (bt.rangeSearch lo 1000000000000000000 false false)
  else if cond.contains "$lt" then do
    let hi ← (cond.get "$lt").get_double
    pure (bt.rangeSearch (-1000000000000000000) hi false false)
  else pure []

/-- The first block of `find` (range index): `some res` when it returns
early, `none` when control falls through to the second block. -/
def rangeBranch (c : Collection) (query : Json) : Except String (Option (List Json)) :=
  match singleField query with
  | some (field, cond) =>
    match scan c.btree_indexes field, cond.is_object with
    | some bt, true => do
      let ids ← rangeIds bt cond
      if ids.isEmpty then pure none else pure (some (fetch c.store ids))
    | _, _ => pure none
  | none => pure none

/-- The second block of `find` (equality index): the documents pushed to
`res` and the flag `usedIndex`. -/
def eqBranch (env : Env) (c : Collection) (query : Json) : List Json × Bool :=
  match singleField query with
  | some (field, cond) =>
    match scan c.indexes field with
    | some mapidx =>
      if !cond.is_object then
        match scan mapidx (index_key_for_value env cond) with
        | some ids => (fetch c.store ids, true)
        | none => ([], false)
      else if cond.contains "$eq" then
        match scan mapidx (index_key_for_value env (cond.get "$eq")) with
        | some ids => (fetch c.store ids, true)
        | none => ([], false)
      else if cond.contains "$in" then
        ((cond.get "$in").elems.flatMap (fun v =>
          match scan mapidx (index_key_for_value env v) with
          | some ids => fetch c.store ids
          | none => []), true)
      else ([], false)
    | none => ([], false)
  | none => ([], false)

/-- The full scan at the end of `find`. -/
def fullScan (env : Env) (c : Collection) (query : Json) : List Json :=
  (c.store.items.filter (fun p => env.evaluate_query p.2 query)).map Prod.snd

/-- The member function `find(query)`. -/
def find (env : Env) (c : Collection) (query : Json) : Except String (List Json) :=
  match rangeBranch c query with
  | .error e => .error e
  | .ok (some res) => .ok res
  | .ok none =>
    match eqBranch env c query with
    | (res, true) => .ok res
    | (res, false) => .ok (res ++ fullScan env c query)

/-- The id `d["_id"].get<std::string>()` of a found document; the conversion
throws unless the member is a string. -/
def idOf (d : Json) : Except String String := (d.get "_id").get_string

/-- The index scrub inside `remove`: for every equality index whose field the
document has, erase the id from the bucket of the encoded value. -/
def scrub (env : Env) (indexes : List (String × List (String × List String))) (d : Json)
    (id : String) : List (String × List (String × List String)) :=
  indexes.map (fun p =>
    if d.contains p.1 then
      (p.1, assocUpdate [] (fun ids => ids.filter (fun x => x ≠ id)) p.2
        (index_key_for_value env (d.get p.1)))
    else p)

/-- The loop of `remove` over the found documents, from the count `cnt`. -/
def removeLoop (env : Env) : List Json → Collection → Nat → Except String Nat × Collection
  | [], c, cnt => (.ok cnt, c)
  | d :: ds, c, cnt =>
    match idOf d with
    | .error e => (.error e, c)
    | .ok id =>
      match c.store.remove id with
      | (true, store1) =>
        removeLoop env ds { c with store := store1, indexes := scrub env c.indexes d id } (cnt + 1)
      | (false, _) => removeLoop env ds c cnt

/-- The member function `remove(query)`. -/
def remove (env : Env) (c : Collection) (query : Json) : Except String Nat × Collection :=
  match find env c query with
  | .error e => (.error e, c)
  | .ok found => removeLoop env found c 0

/-- The member function `create_index(field)` (the in-memory state; the index
files it writes are not part of the model). -/
def create_index (env : Env) (c : Collection) (field : String) : Collection :=
  let its := c.store.items
  if its.any (fun p => p.2.contains field && (p.2.get field).is_number) then
    let btree := its.foldl (fun bt p =>
      match p.2.contains field, p.2.get field with
      | true, .num x => bt.insert x p.1
      | _, _ => bt) (BTreeIndex.mk [])
    { c with btree_indexes := assocSet c.btree_indexes field btree }
  else
    let mapidx := its.foldl (fun mi p =>
      if p.2.contains field then
        assocUpdate [] (fun ids => ids ++ [p.1]) mi (index_key_for_value env (p.2.get field))
      else mi) []
    { c with indexes := assocSet c.indexes field mapidx }

/-- Every stored document is an object whose `_id` member is the string it is
stored under, and the table satisfies its representation invariant. -/
structure Inv (c : Collection) : Prop where
  store : HashMap.Inv c.store
  ids : ∀ k d, (k, d) ∈ c.store.items → ∃ ms, d = .obj ms ∧ scan ms "_id" = some (.str k)

/-- Collections reachable from an empty collection by `insert`, `remove` and
`create_index`. Every `insert` draws an id that is not a key of the document
table, as `gen_id()` does when it never repeats an id. -/
inductive Reachable (env : Env) : Collection → Prop
  | empty : Reachable env Collection.empty
  | insert {c : Collection} (id : String) (doc : Json) (h : Reachable env c)
      (fresh : c.store.get id = none) : Reachable env (Collection.insert env c id doc).2
  | remove {c : Collection} (q : Json) (h : Reachable env c) :
      Reachable env (Collection.remove env c q).2
  | create_index {c : Collection} (field : String) (h : Reachable env c) :
      Reachable env (Collection.create_index env c field)

/-- The class of a value that `index_key_for_value` dispatches on: string (0),
number (1), boolean (2), anything else (3). -/
def valueKind : Json → Nat
  | .str _ => 0
  | .num _ => 1
  | .bool _ => 2
  | _ => 3

/-- The operands that the range-index block of `find` converts with
`get<double>()` for the condition `cond`. -/
def rangeOperands (cond : Json) : List Json :=
  if cond.contains "$eq" then [cond.get "$eq"]
  else if cond.contains "$gt" && cond.contains "$lt" then [cond.get "$gt", cond.get "$lt"]
  else if cond.contains "$gt" then [cond.get "$gt"]
  else if cond.contains "$lt" then [cond.get "$lt"]
  else []

/-- The ids of the bucket keyed `k` in an equality index (no bucket: no id). -/
def bucket (mi : List (String × List String)) (k : String) : List String :=
  (scan mi k).getD []

/-- The equality indexes agree with the document table: an id is in the bucket
keyed `k` of the index on `f` exactly when the table holds a document under
that id that has the field `f` with the encoded value `k`, and no bucket
repeats an id. -/
def Consistent (env : Env) (c : Collection) : Prop :=
  ∀ f mi, scan c.indexes f = some mi →
    ∀ k, (bucket mi k).Nodup ∧
      ∀ id, id ∈ bucket mi k ↔
        ∃ d, c.store.get id = some d ∧ d.contains f = true ∧
          index_key_for_value env (d.get f) = k

end Collection

/-- A stand-in for the external collaborators, used to run concrete traces:
an evaluator matching every document, and constant renderings. -/
def envAll : Env :=
  { evaluate_query := fun _ _ => true, fmt_double := fun _ => "", dump := fun _ => "" }

/-- A stand-in for the external collaborators, used to run concrete traces:
an evaluator matching no document, and constant renderings. -/
def envNone : Env :=
  { evaluate_query := fun _ _ => false, fmt_double := fun _ => "", dump := fun _ => "" }

/-! ## Sample documents and traces -/

/-- The document `{"tag": "x"}`. -/
def docTagX : Json := .obj [("tag", .str "x")]

/-- The document `{"tag": 7}`. -/
def docTag7 : Json := .obj [("tag", .num 7)]

/-- The document `{"age": 30}`. -/
def docAge30 : Json := .obj [("age", .num 30)]

/-- The document `{"age": 45}`. -/
def docAge45 : Json := .obj [("age", .num 45)]

/-- The query `{"age": {"$eq": 45}}`. -/
def queryAge45 : Json := .obj [("age", .obj [("$eq", .num 45)])]

/-- The query `{"tag": {"$eq": "x"}}`. -/
def queryTagX : Json := .obj [("tag", .obj [("$eq", .str "x")])]

/-- Trace: `insert({"tag": "x"})` with id `"1"`, then `create_index("tag")`,
which installs an equality index. -/
def traceTag : Collection :=
  Collection.create_index envAll (Collection.insert envAll Collection.empty "1" docTagX).2 "tag"

/-- Trace: `insert({"age": 30})` with id `"a"`, then `create_index("age")`,
which installs a range index. -/
def traceAge : Collection :=
  Collection.create_index envAll (Collection.insert envAll Collection.empty "a" docAge30).2 "age"

/-- Trace: after `traceTag`, `insert({"tag": 7})` with id `"2"` and a second
`create_index("tag")`. -/
def traceBoth : Collection :=
  Collection.create_index envAll (Collection.insert envAll traceTag "2" docTag7).2 "tag"

/-! ## Chains -/

section Chains

variable {V : Type}

theorem scan_eq_none_iff (c : List (String × V)) (k : String) :
    scan c k = none ↔ ∀ p ∈ c, p.1 ≠ k := by
  induction c with
  | nil => simp [scan]
  | cons p ps ih =>
    by_cases h : p.1 = k
    · simp [scan, h]
    · simp [scan, h, ih]

theorem mem_of_scan_eq_some {c : List (String × V)} {k : String} {v : V}
    (h : scan c k = some v) : (k, v) ∈ c := by
  induction c with
  | nil => simp [scan] at h
  | cons p ps ih =>
    by_cases hp : p.1 = k
    · simp [scan, hp] at h
      subst hp; subst h
      simp
    · simp [scan, hp] at h
      exact List.mem_cons_of_mem _ (ih h)

theorem scan_eq_some_of_mem {c : List (String × V)} {k : String} {v : V}
    (hn : (c.map Prod.fst).Nodup) (h : (k, v) ∈ c) : scan c k = some v := by
  induction c with
  | nil => simp at h
  | cons p ps ih =>
    simp only [List.map_cons, List.nodup_cons] at hn
    rcases List.mem_cons.1 h with h | h
    · subst h
      simp [scan]
    · have hne : p.1 ≠ k := by
        intro e
        apply hn.1
        rw [e]
        exact List.mem_map.2 ⟨(k, v), h, rfl⟩
      simp [scan, hne, ih hn.2 h]

theorem scan_append (a b : List (String × V)) (k : String) :
    scan (a ++ b) k = (scan a k).orElse (fun _ => scan b k) := by
  induction a with
  | nil => simp [scan]
  | cons p ps ih =>
    by_cases h : p.1 = k
    · simp [scan, h]
    · simp [scan, h, ih]

theorem scan_isSome_iff (c : List (String × V)) (k : String) :
    (scan c k).isSome = true ↔ k ∈ c.map Prod.fst := by
  induction c with
  | nil => simp [scan]
  | cons p ps ih =>
    by_cases h : p.1 = k
    · simp [scan, h]
    · have h2 : ¬ k = p.1 := fun e => h e.symm
      simp [scan, h, h2, ih]

namespace HashMap

theorem assign_eq_none_iff (c : List (String × V)) (k : String) (v : V) :
    assign c k v = none ↔ scan c k = none := by
  induction c with
  | nil => simp [assign, scan]
  | cons p ps ih =>
    by_cases h : p.1 = k
    · simp [assign, scan, h]
    · simp [assign, scan, h, ih]

theorem scan_assign {c c2 : List (String × V)} {k : String} {v : V}
    (h : assign c k v = some c2) (k2 : String) :
    scan c2 k2 = if k2 = k then some v else scan c k2 := by
  induction c generalizing c2 with
  | nil => simp [assign] at h
  | cons p ps ih =>
    by_cases hp : p.1 = k
    · simp [assign, hp] at h
      subst h
      by_cases hk : k2 = k
      · simp [scan, hk]
      · have hk2 : ¬ k = k2 := fun e => hk e.symm
        simp [scan, hk, hp, hk2]
    · simp only [assign, hp, if_false, Option.map_eq_some'] at h
      obtain ⟨c3, h3, rfl⟩ := h
      by_cases hk : k2 = k
      · subst hk
        simp [scan, hp, ih h3]
      · by_cases hq : p.1 = k2
        · simp [scan, hq, hk]
        · simp [scan, hq, ih h3, hk]

theorem map_fst_assign {c c2 : List (String × V)} {k : String} {v : V}
    (h : assign c k v = some c2) : c2.map Prod.fst = c.map Prod.fst := by
  induction c generalizing c2 with
  | nil => simp [assign] at h
  | cons p ps ih =>
    by_cases hp : p.1 = k
    · simp only [assign, hp, if_true, Option.some.injEq] at h
      subst h
      simp [hp]
    · simp only [assign, hp, if_false, Option.map_eq_some'] at h
      obtain ⟨c3, h3, rfl⟩ := h
      simp [ih h3]

theorem eraseKey_eq_none_iff (c : List (String × V)) (k : String) :
    eraseKey c k = none ↔ scan c k = none := by
  induction c with
  | nil => simp [eraseKey, scan]
  | cons p ps ih =>
    by_cases h : p.1 = k
    · simp [eraseKey, scan, h]
    · simp [eraseKey, scan, h, ih]

theorem eraseKey_perm {c c2 : List (String × V)} {k : String}
    (h : eraseKey c k = some c2) : ∃ v, scan c k = some v ∧ List.Perm c ((k, v) :: c2) := by
  induction c generalizing c2 with
  | nil => simp [eraseKey] at h
  | cons p ps ih =>
    by_cases hp : p.1 = k
    · simp [eraseKey, hp] at h
      subst h
      refine ⟨p.2, by simp [scan, hp], ?_⟩
      rw [← hp]
    · simp only [eraseKey, hp, if_false, Option.map_eq_some'] at h
      obtain ⟨c3, h3, rfl⟩ := h
      obtain ⟨v, hv, hperm⟩ := ih h3
      refine ⟨v, by simp [scan, hp, hv], ?_⟩
      exact (List.Perm.cons p hperm).trans (List.Perm.swap _ _ _)

end HashMap

end Chains

/-! ## Bucket vectors -/

section Buckets

variable {V : Type}

theorem getD_set_self (bs : List (List (String × V))) (i : Nat) (c : List (String × V))
    (hi : i < bs.length) : (bs.set i c).getD i [] = c := by
  rw [List.getD_eq_getElem?_getD, List.getElem?_set_self hi]
  rfl

theorem getD_set_ne (bs : List (List (String × V))) {i j : Nat} (c : List (String × V))
    (h : i ≠ j) : (bs.set i c).getD j [] = bs.getD j [] := by
  rw [List.getD_eq_getElem?_getD, List.getD_eq_getElem?_getD, List.getElem?_set_ne h]

theorem modify_eq_set (f : List (String × V) → List (String × V))
    (bs : List (List (String × V))) (i : Nat) :
    bs.modify f i = bs.set i (f (bs.getD i [])) := by
  induction bs generalizing i with
  | nil => cases i <;> simp [List.modify]
  | cons b bs ih =>
    cases i with
    | zero => simp [List.modify]
    | succ i =>
      have := ih i
      simp [List.modify_succ_cons, this]

theorem set_getD_self (bs : List (List (String × V))) (i : Nat) :
    bs.set i (bs.getD i []) = bs := by
  induction bs generalizing i with
  | nil => simp
  | cons b bs ih =>
    cases i with
    | zero => simp
    | succ i =>
      have := ih i
      rw [List.getD_eq_getElem?_getD] at this
      simp [this]

theorem flatten_set_perm (bs : List (List (String × V))) (i : Nat) (c : List (String × V))
    (hi : i < bs.length) :
    List.Perm (bs.set i c).flatten (c ++ (bs.set i []).flatten) := by
  induction bs generalizing i with
  | nil => simp at hi
  | cons b bs ih =>
    cases i with
    | zero => simp
    | succ i =>
      have hi2 : i < bs.length := by simpa using hi
      have h1 := ih i hi2
      simp only [List.set_cons_succ, List.flatten_cons]
      have h2 : List.Perm (b ++ (bs.set i c).flatten) (b ++ (c ++ (bs.set i []).flatten)) :=
        List.Perm.append_left b h1
      refine h2.trans ?_
      rw [← List.append_assoc, ← List.append_assoc]
      exact List.Perm.append_right _ List.perm_append_comm

theorem flatten_perm_getD (bs : List (List (String × V))) (i : Nat) (hi : i < bs.length) :
    List.Perm bs.flatten (bs.getD i [] ++ (bs.set i []).flatten) := by
  have h := flatten_set_perm bs i (bs.getD i []) hi
  rwa [set_getD_self] at h

theorem mem_rest {bs : List (List (String × V))} {i : Nat} {p : String × V}
    (h : p ∈ (bs.set i []).flatten) : ∃ j c, j ≠ i ∧ bs[j]? = some c ∧ p ∈ c := by
  obtain ⟨c, hc, hp⟩ := List.mem_flatten.1 h
  obtain ⟨j, hj⟩ := List.mem_iff_getElem?.1 hc
  by_cases hji : i = j
  · subst hji
    rw [List.getElem?_set] at hj
    simp only [if_true] at hj
    split at hj
    · simp only [Option.some.injEq] at hj
      subst hj
      simp at hp
    · simp at hj
  · rw [List.getElem?_set_ne hji] at hj
    exact ⟨j, c, fun e => hji e.symm, hj, hp⟩

theorem getD_eq_of_getElem? {bs : List (List (String × V))} {i : Nat} {c : List (String × V)}
    (h : bs[i]? = some c) : bs.getD i [] = c := by
  rw [List.getD_eq_getElem?_getD, h]
  rfl

theorem getElem?_getD (bs : List (List (String × V))) (i : Nat) (hi : i < bs.length) :
    bs[i]? = some (bs.getD i []) := by
  rw [List.getD_eq_getElem?_getD, List.getElem?_eq_getElem hi]
  rfl

namespace HashMap

theorem rest_key_ne {bs : List (List (String × V))} (hp : Placed bs) (k : String)
    {p : String × V} (h : p ∈ (bs.set (str_hash k % bs.length) []).flatten) : p.1 ≠ k := by
  obtain ⟨j, c, hj, hc, hpc⟩ := mem_rest h
  intro e
  apply hj
  rw [← hp j c hc p hpc, e]

theorem placed_set {bs : List (List (String × V))} (hp : Placed bs) (i : Nat)
    (c : List (String × V)) (hc : ∀ p ∈ c, str_hash p.1 % bs.length = i) :
    Placed (bs.set i c) := by
  intro j d hj p hpd
  rw [List.length_set]
  by_cases hji : i = j
  · subst hji
    rw [List.getElem?_set] at hj
    simp only [if_true] at hj
    split at hj
    · simp only [Option.some.injEq] at hj
      subst hj
      exact hc p hpd
    · simp at hj
  · rw [List.getElem?_set_ne hji] at hj
    exact hp j d hj p hpd

theorem placed_replicate (n : Nat) : Placed (List.replicate n ([] : List (String × V))) := by
  intro i c hc p hp
  rw [List.getElem?_replicate] at hc
  split at hc
  · simp only [Option.some.injEq] at hc
    subst hc
    simp at hp
  · simp at hc

theorem flatten_replicate_nil (n : Nat) :
    (List.replicate n ([] : List (String × V))).flatten = [] := by
  induction n with
  | zero => rfl
  | succ n ih => simp [List.replicate_succ, ih]

theorem inv_new (n : Nat) (L : ℚ) (h : 0 < n) : Inv (HashMap.new n L : HashMap V) where
  pos := by simpa [HashMap.new] using h
  placed := placed_replicate n
  nodup := by simp [HashMap.new, items, flatten_replicate_nil]
  count := by simp [HashMap.new, items, flatten_replicate_nil]

/-- Replacing one chain keeps the invariant when the new chain holds keys of
that bucket only, repeats no key of the table, and `size_` is kept in step. -/
theorem inv_set {m : HashMap V} (hm : Inv m) (i : Nat) (c : List (String × V)) (s : Nat)
    (hi : i < m.buckets.length)
    (hc : ∀ p ∈ c, str_hash p.1 % m.buckets.length = i)
    (hn : ((c ++ (m.buckets.set i []).flatten).map Prod.fst).Nodup)
    (hs : s = (c ++ (m.buckets.set i []).flatten).length) :
    Inv { m with buckets := m.buckets.set i c, size_ := s } where
  pos := by simpa using hm.pos
  placed := placed_set hm.placed i c hc
  nodup := by
    have h := flatten_set_perm m.buckets i c hi
    exact ((h.map Prod.fst).nodup_iff).2 hn
  count := by
    have h := flatten_set_perm m.buckets i c hi
    simp only [items]
    rw [h.length_eq, hs]

theorem get_eq_some_iff {m : HashMap V} (hm : Inv m) (k : String) (v : V) :
    m.get k = some v ↔ (k, v) ∈ m.items := by
  have hi : str_hash k % m.buckets.length < m.buckets.length := Nat.mod_lt _ hm.pos
  constructor
  · intro h
    have h1 := mem_of_scan_eq_some h
    have h2 := getElem?_getD m.buckets _ hi
    exact List.mem_flatten.2 ⟨_, List.mem_iff_getElem?.2 ⟨_, h2⟩, h1⟩
  · intro h
    obtain ⟨c, hc, hkc⟩ := List.mem_flatten.1 h
    obtain ⟨j, hj⟩ := List.mem_iff_getElem?.1 hc
    have hj2 := hm.placed j c hj (k, v) hkc
    simp only at hj2
    have hcd : m.buckets.getD (str_hash k % m.buckets.length) [] = c := by
      rw [hj2]
      exact getD_eq_of_getElem? hj
    have hnd : (c.map Prod.fst).Nodup :=
      List.Nodup.sublist ((List.sublist_flatten_of_mem hc).map Prod.fst) hm.nodup
    simp only [get, bucket_index, hcd]
    exact scan_eq_some_of_mem hnd hkc

theorem get_eq_of_mem_iff {m m2 : HashMap V} (hm : Inv m) (hm2 : Inv m2)
    (h : ∀ p, p ∈ m2.items ↔ p ∈ m.items) (k : String) : m2.get k = m.get k := by
  cases h1 : m.get k with
  | some v =>
    exact (get_eq_some_iff hm2 k v).2 ((h _).2 ((get_eq_some_iff hm k v).1 h1))
  | none =>
    cases h2 : m2.get k with
    | none => rfl
    | some v =>
      have := (get_eq_some_iff hm k v).2 ((h _).1 ((get_eq_some_iff hm2 k v).1 h2))
      rw [h1] at this
      cases this

theorem get_isSome_iff {m : HashMap V} (hm : Inv m) (k : String) :
    (m.get k).isSome = true ↔ k ∈ m.items.map Prod.fst := by
  constructor
  · intro h
    obtain ⟨v, hv⟩ := Option.isSome_iff_exists.1 h
    exact List.mem_map.2 ⟨(k, v), (get_eq_some_iff hm k v).1 hv, rfl⟩
  · intro h
    obtain ⟨p, hp, hk⟩ := List.mem_map.1 h
    have : (k, p.2) ∈ m.items := by
      rw [← hk]
      exact hp
    rw [(get_eq_some_iff hm k p.2).2 this]
    rfl

end HashMap

end Buckets

namespace HashMap

section Table

variable {V : Type}

/-! ## `rehash` -/

theorem rehash_buckets (m : HashMap V) (n : Nat) :
    (m.rehash n).buckets =
      m.items.foldl (fun t p => t.modify (fun c => c ++ [p]) (str_hash p.1 % n))
        (List.replicate n []) := by
  simp [rehash, items, List.foldl_flatten]

theorem fold_push (n : Nat) (hn : 0 < n) (l : List (String × V)) :
    ∀ t : List (List (String × V)), t.length = n → Placed t →
      (l.foldl (fun t p => t.modify (fun c => c ++ [p]) (str_hash p.1 % n)) t).length = n ∧
      Placed (l.foldl (fun t p => t.modify (fun c => c ++ [p]) (str_hash p.1 % n)) t) ∧
      List.Perm (l.foldl (fun t p => t.modify (fun c => c ++ [p]) (str_hash p.1 % n)) t).flatten
        (t.flatten ++ l) := by
  induction l with
  | nil => intro t ht hp; simp [ht, hp]
  | cons p l ih =>
    intro t ht hp
    have hi : str_hash p.1 % n < t.length := by rw [ht]; exact Nat.mod_lt _ hn
    have hstep : t.modify (fun c => c ++ [p]) (str_hash p.1 % n) =
        t.set (str_hash p.1 % n) (t.getD (str_hash p.1 % n) [] ++ [p]) := modify_eq_set _ t _
    have hlen : (t.set (str_hash p.1 % n) (t.getD (str_hash p.1 % n) [] ++ [p])).length = n := by
      rw [List.length_set, ht]
    have hpl : Placed (t.set (str_hash p.1 % n) (t.getD (str_hash p.1 % n) [] ++ [p])) := by
      apply placed_set hp
      intro q hq
      rcases List.mem_append.1 hq with hq | hq
      · exact hp _ _ (getElem?_getD t _ hi) q hq
      · simp only [List.mem_singleton] at hq
        rw [hq, ht]
    have hperm : List.Perm
        (t.set (str_hash p.1 % n) (t.getD (str_hash p.1 % n) [] ++ [p])).flatten
        (t.flatten ++ [p]) := by
      refine (flatten_set_perm t _ _ hi).trans ?_
      have h2 := flatten_perm_getD t _ hi
      refine List.Perm.trans ?_ (List.Perm.append_right [p] h2.symm)
      rw [List.append_assoc, List.append_assoc]
      exact List.Perm.append_left _ List.perm_append_comm
    obtain ⟨h1, h2, h3⟩ := ih _ hlen hpl
    simp only [List.foldl_cons, hstep]
    refine ⟨h1, h2, h3.trans ?_⟩
    have h5 := List.Perm.append_right l hperm
    simpa [List.append_assoc] using h5

theorem rehash_length (m : HashMap V) (n : Nat) : (m.rehash n).buckets.length = n := by
  rw [rehash_buckets]
  generalize m.items = l
  have : ∀ t : List (List (String × V)), t.length = n →
      (l.foldl (fun t p => t.modify (fun c => c ++ [p]) (str_hash p.1 % n)) t).length = n := by
    induction l with
    | nil => intro t ht; simpa using ht
    | cons p l ih =>
      intro t ht
      simp only [List.foldl_cons]
      exact ih _ (by rw [List.length_modify, ht])
  exact this _ (by simp)

theorem rehash_items_perm (m : HashMap V) (n : Nat) (hn : 0 < n) :
    List.Perm (m.rehash n).items m.items := by
  have h := (fold_push n hn m.items (List.replicate n []) (by simp) (placed_replicate n)).2.2
  rw [← rehash_buckets, flatten_replicate_nil] at h
  simpa [items] using h

theorem inv_rehash {m : HashMap V} (hm : Inv m) (n : Nat) (hn : 0 < n) : Inv (m.rehash n) where
  pos := by rw [rehash_length]; exact hn
  placed := by
    have h := (fold_push n hn m.items (List.replicate n []) (by simp) (placed_replicate n)).2.1
    rwa [← rehash_buckets] at h
  nodup := (((rehash_items_perm m n hn).map Prod.fst).nodup_iff).2 hm.nodup
  count := by
    rw [(rehash_items_perm m n hn).length_eq]
    exact hm.count

/-! ## `put` -/

theorem grow_cases (m : HashMap V) : grow m = m ∨ grow m = m.rehash (m.buckets.length * 2) := by
  unfold grow
  split
  · exact Or.inr rfl
  · exact Or.inl rfl

theorem grow_pos {m : HashMap V} (h : 0 < m.buckets.length) : 0 < (grow m).buckets.length := by
  rcases grow_cases m with e | e
  · rw [e]; exact h
  · rw [e, rehash_length]; omega

theorem grow_size (m : HashMap V) : (grow m).size_ = m.size_ := by
  rcases grow_cases m with e | e <;> rw [e]
  rfl

theorem grow_max_load (m : HashMap V) : (grow m).max_load_factor = m.max_load_factor := by
  rcases grow_cases m with e | e <;> rw [e]
  rfl

theorem inv_grow {m : HashMap V} (hm : Inv m) : Inv (grow m) := by
  rcases grow_cases m with e | e
  · rw [e]; exact hm
  · rw [e]; exact inv_rehash hm _ (by have := hm.pos; omega)

theorem grow_items_perm {m : HashMap V} (hm : Inv m) : List.Perm (grow m).items m.items := by
  rcases grow_cases m with e | e
  · rw [e]
  · rw [e]; exact rehash_items_perm m _ (by have := hm.pos; omega)

theorem get_grow {m : HashMap V} (hm : Inv m) (k : String) : (grow m).get k = m.get k :=
  get_eq_of_mem_iff hm (inv_grow hm) (fun _ => (grow_items_perm hm).mem_iff) k

/-- The chain `place` writes at the bucket of the key. -/
theorem place_eq (m : HashMap V) (k : String) (v : V) :
    ∃ c, m.place k v =
        { m with buckets := m.buckets.set (m.bucket_index k) c,
                 size_ := if (m.get k).isSome then m.size_ else m.size_ + 1 } ∧
      (∀ k2, scan c k2 = if k2 = k then some v else scan (m.buckets.getD (m.bucket_index k) []) k2) ∧
      ((m.get k).isSome = true → c.map Prod.fst = (m.buckets.getD (m.bucket_index k) []).map Prod.fst) ∧
      ((m.get k).isSome = false →
        c = m.buckets.getD (m.bucket_index k) [] ++ [(k, v)]) := by
  cases h : assign (m.buckets.getD (m.bucket_index k) []) k v with
  | some c =>
    have hs : (m.get k).isSome = true := by
      cases hg : m.get k with
      | some _ => rfl
      | none =>
        have := (assign_eq_none_iff _ k v).2 hg
        rw [get] at hg
        rw [h] at this
        cases this
    refine ⟨c, ?_, fun k2 => scan_assign h k2, fun _ => map_fst_assign h, ?_⟩
    · simp only [place]
      rw [h]
      simp only [hs, if_true]
    · intro hf
      rw [hs] at hf
      cases hf
  | none =>
    have hg : m.get k = none := (assign_eq_none_iff _ k v).1 h
    refine ⟨m.buckets.getD (m.bucket_index k) [] ++ [(k, v)], ?_, ?_, ?_, fun _ => rfl⟩
    · simp only [place]
      rw [h, modify_eq_set]
      simp only [hg, Option.isSome_none, Bool.false_eq_true, if_false]
    · intro k2
      rw [scan_append]
      by_cases hk : k2 = k
      · subst hk
        rw [get] at hg
        rw [hg]
        simp [scan]
      · have hk2 : ¬ k = k2 := fun e => hk e.symm
        cases hs : scan (m.buckets.getD (m.bucket_index k) []) k2 <;> simp [scan, hk, hk2]
    · intro hs
      rw [hg] at hs
      cases hs

theorem place_length (m : HashMap V) (k : String) (v : V) :
    (m.place k v).buckets.length = m.buckets.length := by
  obtain ⟨c, h, -⟩ := place_eq m k v
  rw [h]
  simp

theorem place_size (m : HashMap V) (k : String) (v : V) :
    (m.place k v).size_ = if (m.get k).isSome then m.size_ else m.size_ + 1 := by
  obtain ⟨c, h, -⟩ := place_eq m k v
  rw [h]

theorem place_max_load (m : HashMap V) (k : String) (v : V) :
    (m.place k v).max_load_factor = m.max_load_factor := by
  obtain ⟨c, h, -⟩ := place_eq m k v
  rw [h]

theorem get_place (m : HashMap V) (h : 0 < m.buckets.length) (k : String) (v : V) (k2 : String) :
    (m.place k v).get k2 = if k2 = k then some v else m.get k2 := by
  obtain ⟨c, he, hscan, -⟩ := place_eq m k v
  have hi : str_hash k % m.buckets.length < m.buckets.length := Nat.mod_lt _ h
  rw [he]
  simp only [bucket_index] at hscan
  simp only [get, bucket_index, List.length_set]
  by_cases hb : str_hash k % m.buckets.length = str_hash k2 % m.buckets.length
  · rw [← hb, getD_set_self _ _ _ hi, hscan]
  · rw [getD_set_ne _ _ hb]
    have hk : ¬ k2 = k := fun e => hb (by rw [e])
    simp only [hk, if_false]

theorem get_put_self (m : HashMap V) (h : 0 < m.buckets.length) (k : String) (v : V) :
    (m.put k v).get k = some v := by
  rw [put, get_place _ (grow_pos h)]
  simp

theorem inv_place {m : HashMap V} (hm : Inv m) (k : String) (v : V) : Inv (m.place k v) := by
  obtain ⟨c, he, hscan, hsome, hnone⟩ := place_eq m k v
  have hi : m.bucket_index k < m.buckets.length := Nat.mod_lt _ hm.pos
  have hperm := flatten_perm_getD m.buckets _ hi
  have hold := hm.placed _ _ (getElem?_getD m.buckets _ hi)
  rw [he]
  cases hs : (m.get k).isSome with
  | true =>
    have hkeys := hsome hs
    apply inv_set hm _ _ _ hi
    · intro p hp
      have : p.1 ∈ c.map Prod.fst := List.mem_map.2 ⟨p, hp, rfl⟩
      rw [hkeys] at this
      obtain ⟨q, hq, hqp⟩ := List.mem_map.1 this
      rw [← hqp]
      exact hold q hq
    · rw [List.map_append, hkeys, ← List.map_append]
      exact ((hperm.map Prod.fst).nodup_iff).1 hm.nodup
    · simp only [if_true, List.length_append]
      have h1 : c.length = (m.buckets.getD (m.bucket_index k) []).length := by
        have := congrArg List.length hkeys
        simpa using this
      rw [h1, ← List.length_append, ← hperm.length_eq]
      exact hm.count
  | false =>
    have hc := hnone hs
    have hg : m.get k = none := by
      cases hgk : m.get k with
      | none => rfl
      | some _ => rw [hgk] at hs; cases hs
    apply inv_set hm _ _ _ hi
    · intro p hp
      rw [hc] at hp
      rcases List.mem_append.1 hp with hp | hp
      · exact hold p hp
      · simp only [List.mem_singleton] at hp
        rw [hp]
        rfl
    · rw [hc]
      have h1 : List.Perm
          ((m.buckets.getD (m.bucket_index k) [] ++ [(k, v)] ++
            (m.buckets.set (m.bucket_index k) []).flatten).map Prod.fst)
          (k :: m.items.map Prod.fst) := by
        have : List.Perm (m.buckets.getD (m.bucket_index k) [] ++ [(k, v)] ++
            (m.buckets.set (m.bucket_index k) []).flatten) ((k, v) :: m.items) := by
          rw [List.append_assoc]
          refine List.perm_middle.trans ?_
          exact List.Perm.cons _ hperm.symm
        exact this.map Prod.fst
      rw [h1.nodup_iff, List.nodup_cons]
      refine ⟨?_, hm.nodup⟩
      intro hk
      have := (get_isSome_iff hm k).2 hk
      rw [hg] at this
      cases this
    · rw [hc]
      simp only [Bool.false_eq_true, if_false, List.length_append, List.length_singleton]
      have := hperm.length_eq
      have h2 := hm.count
      simp only [items] at h2
      simp only [List.length_append] at this
      omega

theorem inv_put {m : HashMap V} (hm : Inv m) (k : String) (v : V) : Inv (m.put k v) :=
  inv_place (inv_grow hm) k v

theorem get_put {m : HashMap V} (hm : Inv m) (k : String) (v : V) (k2 : String) :
    (m.put k v).get k2 = if k2 = k then some v else m.get k2 := by
  rw [put, get_place _ (grow_pos hm.pos), get_grow hm]

theorem put_size {m : HashMap V} (hm : Inv m) (k : String) (v : V) :
    (m.put k v).size_ = if (m.get k).isSome then m.size_ else m.size_ + 1 := by
  rw [put, place_size, get_grow hm, grow_size]

theorem put_max_load (m : HashMap V) (k : String) (v : V) :
    (m.put k v).max_load_factor = m.max_load_factor := by
  rw [put, place_max_load, grow_max_load]

end Table

section Removal

variable {V : Type}

/-! ## `remove` -/

theorem remove_none {m : HashMap V} {k : String} (h : m.get k = none) :
    m.remove k = (false, m) := by
  have h2 : eraseKey (m.buckets.getD (m.bucket_index k) []) k = none :=
    (eraseKey_eq_none_iff _ k).2 h
  simp only [remove]
  rw [h2]

theorem remove_some {m : HashMap V} (hm : Inv m) {k : String} {v : V} (h : m.get k = some v) :
    (m.remove k).1 = true ∧ Inv (m.remove k).2 ∧
      List.Perm m.items ((k, v) :: (m.remove k).2.items) ∧
      (m.remove k).2.size_ + 1 = m.size_ ∧
      (m.remove k).2.buckets.length = m.buckets.length ∧
      (m.remove k).2.max_load_factor = m.max_load_factor := by
  have hi : m.bucket_index k < m.buckets.length := Nat.mod_lt _ hm.pos
  have hperm := flatten_perm_getD m.buckets _ hi
  have hold := hm.placed _ _ (getElem?_getD m.buckets _ hi)
  cases h2 : eraseKey (m.buckets.getD (m.bucket_index k) []) k with
  | none =>
    have := (eraseKey_eq_none_iff _ k).1 h2
    rw [get] at h
    rw [h] at this
    cases this
  | some c2 =>
    obtain ⟨w, hw, hp2⟩ := eraseKey_perm h2
    have hwv : w = v := by
      rw [get] at h
      rw [h] at hw
      exact (Option.some.inj hw).symm
    subst hwv
    have hall : List.Perm m.items
        ((k, w) :: (c2 ++ (m.buckets.set (m.bucket_index k) []).flatten)) := by
      refine hperm.trans ?_
      exact List.Perm.append_right _ hp2
    have hnd : ((c2 ++ (m.buckets.set (m.bucket_index k) []).flatten).map Prod.fst).Nodup := by
      have := ((hall.map Prod.fst).nodup_iff).1 hm.nodup
      simp only [List.map_cons, List.nodup_cons] at this
      exact this.2
    have hlen : m.size_ = (c2 ++ (m.buckets.set (m.bucket_index k) []).flatten).length + 1 := by
      rw [hm.count, hall.length_eq]
      simp
    have hdecr : decr m.size_ = (c2 ++ (m.buckets.set (m.bucket_index k) []).flatten).length := by
      unfold decr
      rw [hlen]
      simp
    have hinv : Inv { m with buckets := m.buckets.set (m.bucket_index k) c2,
                             size_ := decr m.size_ } := by
      apply inv_set hm _ _ _ hi
      · intro p hp
        exact hold p (hp2.symm.subset (List.mem_cons_of_mem _ hp))
      · exact hnd
      · exact hdecr
    simp only [remove]
    rw [h2]
    refine ⟨rfl, hinv, ?_, ?_, ?_, rfl⟩
    · refine hall.trans (List.Perm.cons _ ?_)
      exact (flatten_set_perm m.buckets _ c2 hi).symm
    · show decr m.size_ + 1 = m.size_
      rw [hdecr, hlen]
    · simp

theorem inv_remove {m : HashMap V} (hm : Inv m) (k : String) : Inv (m.remove k).2 := by
  cases h : m.get k with
  | none => rw [remove_none h]; exact hm
  | some v => exact (remove_some hm h).2.1

theorem remove_fst {m : HashMap V} (hm : Inv m) (k : String) :
    (m.remove k).1 = (m.get k).isSome := by
  cases h : m.get k with
  | none => rw [remove_none h]; rfl
  | some v => rw [(remove_some hm h).1]; rfl

theorem get_remove {m : HashMap V} (hm : Inv m) (k k2 : String) :
    (m.remove k).2.get k2 = if k2 = k then none else m.get k2 := by
  cases h : m.get k with
  | none =>
    rw [remove_none h]
    by_cases hk : k2 = k
    · rw [hk, h]; simp
    · simp [hk]
  | some v =>
    obtain ⟨-, hinv, hperm, -⟩ := remove_some hm h
    have hnd := ((hperm.map Prod.fst).nodup_iff).1 hm.nodup
    simp only [List.map_cons, List.nodup_cons] at hnd
    by_cases hk : k2 = k
    · subst hk
      simp only [if_true]
      cases h3 : (m.remove k2).2.get k2 with
      | none => rfl
      | some w =>
        exfalso
        apply hnd.1
        exact List.mem_map.2 ⟨(k2, w), (get_eq_some_iff hinv k2 w).1 h3, rfl⟩
    · simp only [hk, if_false]
      apply Option.ext
      intro w
      rw [Option.mem_def, Option.mem_def, get_eq_some_iff hinv, get_eq_some_iff hm,
        hperm.mem_iff, List.mem_cons]
      constructor
      · intro hh; exact Or.inr hh
      · intro hh
        rcases hh with hh | hh
        · exact absurd (congrArg Prod.fst hh) hk
        · exact hh

theorem remove_size {m : HashMap V} (hm : Inv m) (k : String) :
    (m.remove k).2.size_ = if (m.get k).isSome then m.size_ - 1 else m.size_ := by
  cases h : m.get k with
  | none => rw [remove_none h]; rfl
  | some v =>
    have := (remove_some hm h).2.2.2.1
    simp only [Option.isSome_some, if_true]
    omega

theorem remove_length {m : HashMap V} (hm : Inv m) (k : String) :
    (m.remove k).2.buckets.length = m.buckets.length := by
  cases h : m.get k with
  | none => rw [remove_none h]
  | some v => exact (remove_some hm h).2.2.2.2.1

theorem remove_max_load {m : HashMap V} (hm : Inv m) (k : String) :
    (m.remove k).2.max_load_factor = m.max_load_factor := by
  cases h : m.get k with
  | none => rw [remove_none h]
  | some v => exact (remove_some hm h).2.2.2.2.2

end Removal

end HashMap

section Members

/-! ## Member lists of objects -/

theorem scan_setMember (ms : List (String × Json)) (k : String) (v : Json) (k2 : String) :
    scan (setMember ms k v) k2 = if k2 = k then some v else scan ms k2 := by
  induction ms with
  | nil =>
    by_cases hk : k2 = k
    · simp [setMember, scan, hk]
    · have hk2 : ¬ k = k2 := fun e => hk e.symm
      simp [setMember, scan, hk, hk2]
  | cons p ps ih =>
    by_cases hp : p.1 = k
    · by_cases hk : k2 = k
      · simp [setMember, scan, hp, hk]
      · have hk2 : ¬ k = k2 := fun e => hk e.symm
        simp [setMember, scan, hp, hk, hk2]
    · by_cases hlt : k.data < p.1.data
      · by_cases hk : k2 = k
        · simp [setMember, scan, hp, hlt, hk]
        · have hk2 : ¬ k = k2 := fun e => hk e.symm
          simp [setMember, scan, hp, hlt, hk, hk2]
      · by_cases hk : k2 = k
        · subst hk
          simp [setMember, scan, hp, hlt, ih]
        · by_cases hq : p.1 = k2
          · subst hq
            simp [setMember, scan, hp, hlt]
          · simp [setMember, scan, hp, hlt, hq, ih, hk]

theorem mem_setMember {ms : List (String × Json)} {k : String} {v : Json} {q : String × Json}
    (h : q ∈ setMember ms k v) : q = (k, v) ∨ q ∈ ms := by
  induction ms with
  | nil => simpa [setMember] using h
  | cons p ps ih =>
    by_cases hp : p.1 = k
    · simp only [setMember, hp, if_true, List.mem_cons] at h
      rcases h with h | h
      · exact Or.inl h
      · exact Or.inr (List.mem_cons_of_mem _ h)
    · by_cases hlt : k.data < p.1.data
      · simp only [setMember, hp, hlt, if_true, if_false, List.mem_cons] at h
        rcases h with h | h | h
        · exact Or.inl h
        · exact Or.inr (by rw [h]; exact List.mem_cons_self _ _)
        · exact Or.inr (List.mem_cons_of_mem _ h)
      · simp only [setMember, hp, hlt, if_false, List.mem_cons] at h
        rcases h with h | h
        · exact Or.inr (by rw [h]; exact List.mem_cons_self _ _)
        · rcases ih h with h | h
          · exact Or.inl h
          · exact Or.inr (List.mem_cons_of_mem _ h)

theorem pairwise_setMember {ms : List (String × Json)} (k : String) (v : Json)
    (h : ms.Pairwise (fun a b => a.1.data < b.1.data)) :
    (setMember ms k v).Pairwise (fun a b => a.1.data < b.1.data) := by
  induction ms with
  | nil => simp [setMember]
  | cons p ps ih =>
    rw [List.pairwise_cons] at h
    by_cases hp : p.1 = k
    · simp only [setMember, hp, if_true]
      rw [List.pairwise_cons]
      refine ⟨?_, h.2⟩
      intro q hq
      have := h.1 q hq
      rwa [hp] at this
    · by_cases hlt : k.data < p.1.data
      · simp only [setMember, hp, hlt, if_true, if_false]
        rw [List.pairwise_cons, List.pairwise_cons]
        refine ⟨?_, h⟩
        intro q hq
        rcases List.mem_cons.1 hq with hq | hq
        · rw [hq]; exact hlt
        · exact lt_trans hlt (h.1 q hq)
      · simp only [setMember, hp, hlt, if_false]
        rw [List.pairwise_cons]
        refine ⟨?_, ih h.2⟩
        intro q hq
        rcases mem_setMember hq with hq | hq
        · rw [hq]
          rcases lt_trichotomy p.1.data k.data with h3 | h3 | h3
          · exact h3
          · exact absurd (String.ext h3) hp
          · exact absurd h3 hlt
        · exact h.1 q hq

theorem nodup_keys_of_pairwise {ms : List (String × Json)}
    (h : ms.Pairwise (fun a b => a.1.data < b.1.data)) : (ms.map Prod.fst).Nodup := by
  rw [List.Nodup, List.pairwise_map]
  refine h.imp ?_
  intro a b hab e
  rw [e] at hab
  exact lt_irrefl _ hab

theorem pairwise_foldl_setMember (l : List (String × Json)) :
    ∀ j : List (String × Json), j.Pairwise (fun a b => a.1.data < b.1.data) →
      (l.foldl (fun j p => setMember j p.1 p.2) j).Pairwise (fun a b => a.1.data < b.1.data) := by
  induction l with
  | nil => intro j hj; exact hj
  | cons p ps ih => intro j hj; exact ih _ (pairwise_setMember p.1 p.2 hj)

theorem scan_foldl_setMember (l : List (String × Json)) (hl : (l.map Prod.fst).Nodup)
    (k : String) :
    ∀ j : List (String × Json),
      scan (l.foldl (fun j p => setMember j p.1 p.2) j) k =
        (scan l k).orElse (fun _ => scan j k) := by
  induction l with
  | nil => intro j; simp [scan]
  | cons p ps ih =>
    intro j
    simp only [List.map_cons, List.nodup_cons] at hl
    simp only [List.foldl_cons]
    rw [ih hl.2, scan_setMember]
    by_cases hp : p.1 = k
    · have hnone : scan ps k = none := by
        rw [scan_eq_none_iff]
        intro q hq e
        apply hl.1
        rw [hp, ← e]
        exact List.mem_map.2 ⟨q, hq, rfl⟩
      simp [scan, hp, hnone]
    · have hp2 : ¬ k = p.1 := fun e => hp e.symm
      simp [scan, hp, hp2]

end Members

namespace HashMap

section Folds

variable {V : Type}

/-! ## Sequences of `put`, `from_json`, reachable tables -/

theorem scan_items {m : HashMap V} (hm : Inv m) (k : String) : scan m.items k = m.get k := by
  apply Option.ext
  intro v
  rw [Option.mem_def, Option.mem_def, get_eq_some_iff hm]
  exact ⟨mem_of_scan_eq_some, scan_eq_some_of_mem hm.nodup⟩

theorem inv_foldl_put (l : List (String × V)) :
    ∀ m : HashMap V, Inv m → Inv (l.foldl (fun t p => t.put p.1 p.2) m) := by
  induction l with
  | nil => intro m hm; exact hm
  | cons p ps ih => intro m hm; exact ih _ (inv_put hm p.1 p.2)

theorem get_foldl_put (l : List (String × V)) (hl : (l.map Prod.fst).Nodup) (k : String) :
    ∀ m : HashMap V, Inv m →
      (l.foldl (fun t p => t.put p.1 p.2) m).get k = (scan l k).orElse (fun _ => m.get k) := by
  induction l with
  | nil => intro m _; simp [scan]
  | cons p ps ih =>
    intro m hm
    simp only [List.map_cons, List.nodup_cons] at hl
    simp only [List.foldl_cons]
    rw [ih hl.2 _ (inv_put hm p.1 p.2), get_put hm]
    by_cases hp : p.1 = k
    · have hnone : scan ps k = none := by
        rw [scan_eq_none_iff]
        intro q hq e
        apply hl.1
        rw [hp, ← e]
        exact List.mem_map.2 ⟨q, hq, rfl⟩
      simp [scan, hp, hnone]
    · have hp2 : ¬ k = p.1 := fun e => hp e.symm
      simp [scan, hp, hp2]

theorem size_foldl_put (l : List (String × V)) (hl : (l.map Prod.fst).Nodup) :
    ∀ m : HashMap V, Inv m → (∀ p ∈ l, m.get p.1 = none) →
      (l.foldl (fun t p => t.put p.1 p.2) m).size_ = m.size_ + l.length := by
  induction l with
  | nil => intro m _ _; rfl
  | cons p ps ih =>
    intro m hm hfresh
    simp only [List.map_cons, List.nodup_cons] at hl
    simp only [List.foldl_cons]
    rw [ih hl.2 _ (inv_put hm p.1 p.2), put_size hm, hfresh p (List.mem_cons_self _ _)]
    · simp only [Option.isSome_none, Bool.false_eq_true, if_false, List.length_cons]
      omega
    · intro q hq
      rw [get_put hm]
      have hne : ¬ q.1 = p.1 := by
        intro e
        apply hl.1
        rw [← e]
        exact List.mem_map.2 ⟨q, hq, rfl⟩
      simp only [hne, if_false]
      exact hfresh q (List.mem_cons_of_mem _ hq)

theorem inv_reset (m : HashMap V) :
    Inv ({ m with buckets := List.replicate 16 [], size_ := 0 } : HashMap V) where
  pos := by simp
  placed := placed_replicate 16
  nodup := by simp [items, flatten_replicate_nil]
  count := by simp [items, flatten_replicate_nil]

theorem get_reset (m : HashMap V) (k : String) :
    ({ m with buckets := List.replicate 16 [], size_ := 0 } : HashMap V).get k = none := by
  cases h : ({ m with buckets := List.replicate 16 [], size_ := 0 } : HashMap V).get k with
  | none => rfl
  | some v =>
    have := (get_eq_some_iff (inv_reset m) k v).1 h
    simp [items, flatten_replicate_nil] at this

end Folds

theorem inv_from_json (m : HashMap Json) (j : Json) : Inv (m.from_json j).2 := by
  unfold from_json
  split
  · exact inv_foldl_put _ _ (inv_reset m)
  · exact inv_reset m
  · exact inv_reset m
  · exact inv_reset m

theorem inv_of_reachable {m : HashMap Json} (h : Reachable m) : Inv m := by
  induction h with
  | new n L h => exact inv_new n L h
  | put k v _ ih => exact inv_put ih k v
  | remove k _ ih => exact inv_remove ih k
  | from_json j _ _ => exact inv_from_json _ j

theorem to_json_eq (m : HashMap Json) :
    m.to_json = .obj (m.items.foldl (fun j p => setMember j p.1 p.2) []) := by
  simp [to_json, items, List.foldl_flatten]

section Load

variable {V : Type}

/-! ## Occupancy -/

/-- The occupancy bound `size_ ≤ L · buckets` together with the slack
`1 ≤ 2 · L · buckets` that makes one doubling enough. -/
theorem load_grow {m : HashMap V} (hpos : 0 < m.buckets.length) {L : ℚ}
    (hL : m.max_load_factor = L)
    (h1 : (m.size_ : ℚ) ≤ L * (m.buckets.length : ℚ))
    (h2 : 1 ≤ 2 * L * (m.buckets.length : ℚ)) :
    ((grow m).size_ : ℚ) + 1 ≤ L * ((grow m).buckets.length : ℚ) ∧
      1 ≤ 2 * L * ((grow m).buckets.length : ℚ) := by
  have hn : (0 : ℚ) < (m.buckets.length : ℚ) := by exact_mod_cast hpos
  unfold grow
  split
  · rename_i hlt
    simp only [rehash_length]
    have hs : (m.rehash (m.buckets.length * 2)).size_ = m.size_ := rfl
    rw [hs]
    push_cast
    constructor
    · rcases Nat.eq_zero_or_pos m.size_ with h0 | h0
      · rw [h0]
        push_cast
        linarith
      · have : (1 : ℚ) ≤ (m.size_ : ℚ) := by exact_mod_cast h0
        linarith
    · linarith
  · rename_i hlt
    rw [hL] at hlt
    have hle := not_lt.1 hlt
    rw [div_le_iff₀ hn] at hle
    push_cast at hle
    exact ⟨hle, h2⟩

theorem load_put {m : HashMap V} (hpos : 0 < m.buckets.length) {L : ℚ}
    (hL : m.max_load_factor = L)
    (h1 : (m.size_ : ℚ) ≤ L * (m.buckets.length : ℚ))
    (h2 : 1 ≤ 2 * L * (m.buckets.length : ℚ)) (k : String) (v : V) :
    ((m.put k v).size_ : ℚ) ≤ L * ((m.put k v).buckets.length : ℚ) ∧
      1 ≤ 2 * L * ((m.put k v).buckets.length : ℚ) := by
  obtain ⟨g1, g2⟩ := load_grow hpos hL h1 h2
  rw [put, place_length, place_size]
  refine ⟨?_, g2⟩
  split
  · linarith
  · push_cast
    exact g1

theorem load_remove {m : HashMap V} (hm : Inv m) {L : ℚ}
    (h1 : (m.size_ : ℚ) ≤ L * (m.buckets.length : ℚ))
    (h2 : 1 ≤ 2 * L * (m.buckets.length : ℚ)) (k : String) :
    ((m.remove k).2.size_ : ℚ) ≤ L * ((m.remove k).2.buckets.length : ℚ) ∧
      1 ≤ 2 * L * ((m.remove k).2.buckets.length : ℚ) := by
  rw [remove_length hm, remove_size hm]
  refine ⟨?_, h2⟩
  split
  · have : ((m.size_ - 1 : Nat) : ℚ) ≤ (m.size_ : ℚ) := by exact_mod_cast Nat.sub_le _ _
    linarith
  · exact h1

theorem load_foldl_put (L : ℚ) (l : List (String × V)) :
    ∀ m : HashMap V, Inv m → m.max_load_factor = L →
      (m.size_ : ℚ) ≤ L * (m.buckets.length : ℚ) → 1 ≤ 2 * L * (m.buckets.length : ℚ) →
      (((l.foldl (fun t p => t.put p.1 p.2) m).size_ : ℚ) ≤
          L * ((l.foldl (fun t p => t.put p.1 p.2) m).buckets.length : ℚ)) ∧
        1 ≤ 2 * L * ((l.foldl (fun t p => t.put p.1 p.2) m).buckets.length : ℚ) := by
  induction l with
  | nil => intro m _ _ h1 h2; exact ⟨h1, h2⟩
  | cons p ps ih =>
    intro m hm hL h1 h2
    obtain ⟨g1, g2⟩ := load_put hm.pos hL h1 h2 p.1 p.2
    exact ih _ (inv_put hm p.1 p.2) (by rw [put_max_load, hL]) g1 g2

theorem max_load_foldl_put (l : List (String × V)) :
    ∀ m : HashMap V, (l.foldl (fun t p => t.put p.1 p.2) m).max_load_factor =
      m.max_load_factor := by
  induction l with
  | nil => intro m; rfl
  | cons p ps ih => intro m; simp only [List.foldl_cons]; rw [ih, put_max_load]

end Load

/-! ## The table: statements of the specification -/

/-- C1: on a table with at least one bucket, `get(k)` after `put(k, v)` reports
the key present with exactly the value `v`, whether or not the `put` rehashed
and whether or not the key was there before. -/
theorem put_get_same {V : Type} (m : HashMap V) (k : String) (v : V)
    (h : 0 < m.buckets.length) : (m.put k v).get k = some v :=
  get_put_self m h k v

theorem put_get_same_witness :
    0 < (HashMap.new 16 (3 / 4) : HashMap Json).buckets.length ∧
      ((HashMap.new 16 (3 / 4) : HashMap Json).put "a" (Json.num 1)).get "a" =
        some (Json.num 1) :=
  ⟨by decide, put_get_same (HashMap.new 16 (3 / 4)) "a" (Json.num 1) (by decide)⟩

/-- C2: on a reachable table `remove(k)` returns `true` exactly when `get(k)`
reported the key present, `size()` drops by one in exactly that case, and
afterwards `get(k)` reports absence. -/
theorem remove_iff_present {m : HashMap Json} (h : Reachable m) (k : String) :
    (m.remove k).1 = (m.get k).isSome ∧
      ((m.get k).isSome = true → (m.remove k).2.size + 1 = m.size) ∧
      ((m.get k).isSome = false → (m.remove k).2.size = m.size) ∧
      (m.remove k).2.get k = none := by
  have hm := inv_of_reachable h
  refine ⟨remove_fst hm k, ?_, ?_, ?_⟩
  · intro hs
    obtain ⟨v, hv⟩ := Option.isSome_iff_exists.1 hs
    exact (remove_some hm hv).2.2.2.1
  · intro hs
    have hn : m.get k = none := by
      cases hg : m.get k with
      | none => rfl
      | some _ => rw [hg] at hs; cases hs
    rw [remove_none hn]
  · rw [get_remove hm]
    simp

theorem remove_iff_present_witness :
    Reachable ((HashMap.new 16 (3 / 4)).put "a" Json.null) ∧
      (((HashMap.new 16 (3 / 4)).put "a" Json.null).remove "a").2.get "a" = none :=
  ⟨Reachable.put "a" Json.null (Reachable.new 16 (3 / 4) (by decide)),
   (remove_iff_present
      (Reachable.put "a" Json.null (Reachable.new 16 (3 / 4) (by decide))) "a").2.2.2⟩

/-- C3: in a reachable table the keys of `items()` are pairwise distinct and
`items()` has `size()` entries; putting `N` distinct keys into an empty table
gives `size() == N`. -/
theorem items_keys_distinct {m : HashMap Json} (h : Reachable m) :
    (m.items.map Prod.fst).Nodup ∧ m.items.length = m.size ∧
      ∀ (n : Nat) (L : ℚ) (l : List (String × Json)), 0 < n → (l.map Prod.fst).Nodup →
        (l.foldl (fun t p => t.put p.1 p.2) (HashMap.new n L)).size = l.length := by
  have hm := inv_of_reachable h
  refine ⟨hm.nodup, hm.count.symm, ?_⟩
  intro n L l hn hl
  have h0 : Inv (HashMap.new n L : HashMap Json) := inv_new n L hn
  have := size_foldl_put l hl _ h0 (by
    intro p _
    cases hg : (HashMap.new n L : HashMap Json).get p.1 with
    | none => rfl
    | some v =>
      have := (get_eq_some_iff h0 p.1 v).1 hg
      simp [HashMap.new, items, flatten_replicate_nil] at this)
  simpa [size, HashMap.new] using this

theorem items_keys_distinct_witness :
    Reachable ((HashMap.new 16 (3 / 4)).put "a" Json.null) ∧
      (((HashMap.new 16 (3 / 4)).put "a" Json.null).items.map Prod.fst).Nodup :=
  ⟨Reachable.put "a" Json.null (Reachable.new 16 (3 / 4) (by decide)),
   (items_keys_distinct
      (Reachable.put "a" Json.null (Reachable.new 16 (3 / 4) (by decide)))).1⟩

/-- C19: on a reachable table, `put(k, v)` and `remove(k)` leave the result of
`get(k2)` unchanged for every other key `k2`, also when the `put` doubles the
bucket count. -/
theorem put_remove_frame {m : HashMap Json} (h : Reachable m) (k k2 : String) (v : Json)
    (hne : k ≠ k2) :
    (m.put k v).get k2 = m.get k2 ∧ (m.remove k).2.get k2 = m.get k2 := by
  have hm := inv_of_reachable h
  have hk : ¬ k2 = k := fun e => hne e.symm
  rw [get_put hm, get_remove hm]
  simp [hk]

theorem put_remove_frame_witness :
    Reachable ((HashMap.new 16 (3 / 4)).put "a" Json.null) ∧ "b" ≠ "a" ∧
      ((((HashMap.new 16 (3 / 4)).put "a" Json.null).put "b" (Json.bool true)).get "a" =
          ((HashMap.new 16 (3 / 4)).put "a" Json.null).get "a" ∧
        (((HashMap.new 16 (3 / 4)).put "a" Json.null).remove "b").2.get "a" =
          ((HashMap.new 16 (3 / 4)).put "a" Json.null).get "a") :=
  ⟨Reachable.put "a" Json.null (Reachable.new 16 (3 / 4) (by decide)), by decide,
   put_remove_frame (Reachable.put "a" Json.null (Reachable.new 16 (3 / 4) (by decide)))
     "b" "a" (Json.bool true) (by decide)⟩

theorem put_length_cases {V : Type} (m : HashMap V) (k : String) (v : V) :
    (m.put k v).buckets.length = m.buckets.length ∨
      (m.put k v).buckets.length = m.buckets.length * 2 := by
  rw [put, place_length]
  rcases grow_cases m with e | e
  · rw [e]; exact Or.inl rfl
  · rw [e, rehash_length]; exact Or.inr rfl

theorem pow_length_foldl_put {V : Type} (l : List (String × V)) :
    ∀ m : HashMap V, (∃ k, m.buckets.length = 16 * 2 ^ k) →
      ∃ k, (l.foldl (fun t p => t.put p.1 p.2) m).buckets.length = 16 * 2 ^ k := by
  induction l with
  | nil => intro m h; exact h
  | cons p ps ih =>
    intro m h
    apply ih
    obtain ⟨k, hk⟩ := h
    rcases put_length_cases m p.1 p.2 with e | e
    · exact ⟨k, by rw [e, hk]⟩
    · exact ⟨k + 1, by rw [e, hk, pow_succ, Nat.mul_assoc]⟩

theorem default_invariant {m : HashMap Json} (h : ReachableDefault m) :
    Inv m ∧ m.max_load_factor = 3 / 4 ∧
      (m.size_ : ℚ) ≤ 3 / 4 * (m.buckets.length : ℚ) ∧
      1 ≤ 2 * (3 / 4 : ℚ) * (m.buckets.length : ℚ) ∧
      ∃ k, m.buckets.length = 16 * 2 ^ k := by
  have hreset : ∀ m : HashMap Json, m.max_load_factor = 3 / 4 →
      (({ m with buckets := List.replicate 16 [], size_ := 0 } : HashMap Json).size_ : ℚ) ≤
        3 / 4 * ((({ m with buckets := List.replicate 16 [], size_ := 0 } :
          HashMap Json).buckets.length : Nat) : ℚ) ∧
      1 ≤ 2 * (3 / 4 : ℚ) * ((({ m with buckets := List.replicate 16 [], size_ := 0 } :
          HashMap Json).buckets.length : Nat) : ℚ) := by
    intro m _
    simp only [List.length_replicate]
    norm_num
  induction h with
  | new =>
    refine ⟨inv_new 16 _ (by decide), rfl, ?_, ?_, ⟨0, by simp [HashMap.new]⟩⟩
    · simp only [HashMap.new, List.length_replicate]; norm_num
    · simp only [HashMap.new, List.length_replicate]; norm_num
  | put k v _ ih =>
    obtain ⟨i0, i1, i2, i3, n, i4⟩ := ih
    obtain ⟨g1, g2⟩ := load_put i0.pos i1 i2 i3 k v
    refine ⟨inv_put i0 k v, by rw [put_max_load, i1], g1, g2, ?_⟩
    rcases put_length_cases _ k v with e | e
    · exact ⟨n, by rw [e, i4]⟩
    · exact ⟨n + 1, by rw [e, i4, pow_succ, Nat.mul_assoc]⟩
  | remove k _ ih =>
    obtain ⟨i0, i1, i2, i3, n, i4⟩ := ih
    obtain ⟨g1, g2⟩ := load_remove i0 i2 i3 k
    exact ⟨inv_remove i0 k, by rw [remove_max_load i0, i1], g1, g2,
      ⟨n, by rw [remove_length i0, i4]⟩⟩
  | @from_json m j _ ih =>
    obtain ⟨-, i1, -⟩ := ih
    obtain ⟨r1, r2⟩ := hreset m i1
    have rk : ∃ k, ({ m with buckets := List.replicate 16 [], size_ := 0 } :
        HashMap Json).buckets.length = 16 * 2 ^ k := ⟨0, by simp⟩
    refine ⟨inv_from_json m j, ?_⟩
    unfold from_json
    split
    · rename_i ms
      obtain ⟨g1, g2⟩ := load_foldl_put (3 / 4) ms _ (inv_reset m) i1 r1 r2
      exact ⟨by rw [max_load_foldl_put]; exact i1, g1, g2, pow_length_foldl_put ms _ rk⟩
    · exact ⟨i1, r1, r2, rk⟩
    · exact ⟨i1, r1, r2, rk⟩
    · exact ⟨i1, r1, r2, rk⟩

/-- C17: for the default table (16 buckets, load factor 0.75), after any
sequence of `put`, `remove` and `from_json` calls `size() / bucket_count` is at
most 0.75 and the bucket count is 16 times a power of two, so it is not zero and
every `bucket_index` is in range. -/
theorem default_load_factor {m : HashMap Json} (h : ReachableDefault m) :
    (m.size : ℚ) / (m.buckets.length : ℚ) ≤ 3 / 4 ∧
      (∃ k, m.buckets.length = 16 * 2 ^ k) ∧ m.buckets.length ≠ 0 ∧
      ∀ key, m.bucket_index key < m.buckets.length := by
  obtain ⟨i0, -, i2, -, i4⟩ := default_invariant h
  have hn : (0 : ℚ) < (m.buckets.length : ℚ) := by exact_mod_cast i0.pos
  refine ⟨?_, i4, Nat.pos_iff_ne_zero.1 i0.pos, fun key => Nat.mod_lt _ i0.pos⟩
  rw [div_le_iff₀ hn]
  exact i2

theorem default_load_factor_witness :
    ReachableDefault ((HashMap.new 16 (3 / 4)).put "a" Json.null) ∧
      (((HashMap.new 16 (3 / 4)).put "a" Json.null).size : ℚ) /
        (((HashMap.new 16 (3 / 4)).put "a" Json.null).buckets.length : ℚ) ≤ 3 / 4 :=
  ⟨ReachableDefault.put "a" Json.null ReachableDefault.new,
   (default_load_factor (ReachableDefault.put "a" Json.null ReachableDefault.new)).1⟩

theorem to_json_members {x : HashMap Json} (hx : Inv x) :
    ∃ ms, x.to_json = .obj ms ∧ (ms.map Prod.fst).Nodup ∧ ∀ k, scan ms k = x.get k := by
  refine ⟨x.items.foldl (fun j p => setMember j p.1 p.2) [], to_json_eq x, ?_, ?_⟩
  · exact nodup_keys_of_pairwise (pairwise_foldl_setMember _ _ List.Pairwise.nil)
  · intro k
    rw [scan_foldl_setMember _ hx.nodup, scan_items hx]
    cases x.get k <;> simp [scan]

theorem size_eq_of_get_eq {x y : HashMap Json} (hx : Inv x) (hy : Inv y)
    (h : ∀ k, y.get k = x.get k) : y.size = x.size := by
  have hp : List.Perm (y.items.map Prod.fst) (x.items.map Prod.fst) := by
    rw [List.perm_ext_iff_of_nodup hy.nodup hx.nodup]
    intro k
    rw [← get_isSome_iff hy, ← get_isSome_iff hx, h]
  have := hp.length_eq
  simp only [List.length_map] at this
  simp only [size]
  rw [hx.count, hy.count, this]

/-- C5: for a reachable table `x`, the table left by `from_json(to_json(x))`
(called on any table) is observationally equal to `x`: the call succeeds,
`get(k)` gives the same presence and value for every key, and `size()` is the
same. -/
theorem from_json_to_json {x : HashMap Json} (h : Reachable x) (y0 : HashMap Json) :
    (y0.from_json x.to_json).1 = .ok () ∧
      (∀ k, (y0.from_json x.to_json).2.get k = x.get k) ∧
      (y0.from_json x.to_json).2.size = x.size := by
  have hx := inv_of_reachable h
  obtain ⟨ms, hms, hnd, hscan⟩ := to_json_members hx
  have hget : ∀ k, (y0.from_json x.to_json).2.get k = x.get k := by
    intro k
    rw [hms]
    simp only [from_json]
    rw [get_foldl_put ms hnd k _ (inv_reset y0), get_reset, hscan]
    cases x.get k <;> rfl
  refine ⟨by rw [hms]; rfl, hget, ?_⟩
  exact size_eq_of_get_eq hx (inv_from_json y0 _) hget

theorem from_json_to_json_witness :
    Reachable ((HashMap.new 16 (3 / 4)).put "a" Json.null) ∧
      ((HashMap.new 4 (1 / 2)).from_json
          ((HashMap.new 16 (3 / 4)).put "a" Json.null).to_json).2.size =
        ((HashMap.new 16 (3 / 4)).put "a" Json.null).size :=
  ⟨Reachable.put "a" Json.null (Reachable.new 16 (3 / 4) (by decide)),
   (from_json_to_json
      (Reachable.put "a" Json.null (Reachable.new 16 (3 / 4) (by decide)))
      (HashMap.new 4 (1 / 2))).2.2⟩

end HashMap

section Assoc

variable {β : Type}

/-! ## Association lists (`unordered_map`) -/

theorem scan_assocSet (l : List (String × β)) (k : String) (v : β) (k2 : String) :
    scan (assocSet l k v) k2 = if k2 = k then some v else scan l k2 := by
  induction l with
  | nil =>
    by_cases hk : k2 = k
    · simp [assocSet, scan, hk]
    · have hk2 : ¬ k = k2 := fun e => hk e.symm
      simp [assocSet, scan, hk, hk2]
  | cons p ps ih =>
    by_cases hp : p.1 = k
    · by_cases hk : k2 = k
      · simp [assocSet, scan, hp, hk]
      · have hk2 : ¬ k = k2 := fun e => hk e.symm
        simp [assocSet, scan, hp, hk, hk2]
    · by_cases hk : k2 = k
      · subst hk
        simp [assocSet, scan, hp, ih]
      · by_cases hq : p.1 = k2
        · subst hq
          simp [assocSet, scan, hp]
        · simp [assocSet, scan, hp, hq, ih, hk]

theorem scan_assocUpdate (dflt : β) (g : β → β) (l : List (String × β)) (k k2 : String) :
    scan (assocUpdate dflt g l k) k2 =
      if k2 = k then some (g ((scan l k).getD dflt)) else scan l k2 := by
  induction l with
  | nil =>
    by_cases hk : k2 = k
    · simp [assocUpdate, scan, hk]
    · have hk2 : ¬ k = k2 := fun e => hk e.symm
      simp [assocUpdate, scan, hk, hk2]
  | cons p ps ih =>
    by_cases hp : p.1 = k
    · by_cases hk : k2 = k
      · simp [assocUpdate, scan, hp, hk]
      · have hk2 : ¬ k = k2 := fun e => hk e.symm
        simp [assocUpdate, scan, hp, hk, hk2]
    · by_cases hk : k2 = k
      · subst hk
        simp [assocUpdate, scan, hp, ih]
      · by_cases hq : p.1 = k2
        · subst hq
          simp [assocUpdate, scan, hp]
        · simp [assocUpdate, scan, hp, hq, ih, hk]

theorem map_fst_assocSet (l : List (String × β)) (k : String) (v : β)
    (h : (l.map Prod.fst).Nodup) : ((assocSet l k v).map Prod.fst).Nodup := by
  induction l with
  | nil => simp [assocSet]
  | cons p ps ih =>
    simp only [List.map_cons, List.nodup_cons] at h
    by_cases hp : p.1 = k
    · simp only [assocSet, hp, if_true, List.map_cons, List.nodup_cons]
      rw [← hp]
      exact h
    · simp only [assocSet, hp, if_false, List.map_cons, List.nodup_cons]
      refine ⟨?_, ih h.2⟩
      intro hm
      have h1 : (scan (assocSet ps k v) p.1).isSome = true := (scan_isSome_iff _ _).2 hm
      rw [scan_assocSet] at h1
      simp only [hp, if_false] at h1
      exact h.1 ((scan_isSome_iff _ _).1 h1)

/-- Lookup in a map whose values were rewritten in place, key by key. -/
theorem scan_map_values {γ : Type} (g : String → β → γ) (l : List (String × β)) (k : String) :
    scan (l.map (fun p => (p.1, g p.1 p.2))) k = (scan l k).map (g k) := by
  induction l with
  | nil => simp [scan]
  | cons p ps ih =>
    by_cases hp : p.1 = k
    · subst hp
      simp [scan]
    · simp [scan, hp, ih]

/-- Lookup in a map whose entries were rewritten in place, keeping every key. -/
theorem scan_map_keep (F : String × β → String × β) (hF : ∀ p, (F p).1 = p.1)
    (l : List (String × β)) (k : String) :
    scan (l.map F) k = (scan l k).map (fun v => (F (k, v)).2) := by
  induction l with
  | nil => simp [scan]
  | cons p ps ih =>
    by_cases hp : p.1 = k
    · have : F (k, p.2) = F p := by rw [← hp]
      simp [scan, hF, hp, this]
    · simp [scan, hF, hp, ih]

theorem map_fst_map_keep (F : String × β → String × β) (hF : ∀ p, (F p).1 = p.1)
    (l : List (String × β)) : (l.map F).map Prod.fst = l.map Prod.fst := by
  induction l with
  | nil => rfl
  | cons p ps ih => simp [hF]

theorem map_fst_map_values {γ : Type} (g : String → β → γ) (l : List (String × β)) :
    (l.map (fun p => (p.1, g p.1 p.2))).map Prod.fst = l.map Prod.fst := by
  induction l with
  | nil => rfl
  | cons p ps ih => simp

end Assoc

namespace Collection

/-! ## `insert` on a non-object, value encoding, range-branch errors -/

/-- C6: `insert` called with a value that is not an object fails with an error
and leaves the collection as it was: document table, equality indexes and
range indexes are unchanged. -/
theorem insert_non_object (env : Env) (c : Collection) (id : String) (doc : Json)
    (h : doc.is_object = false) :
    (insert env c id doc).1 = .error "Document must be an object" ∧
      (insert env c id doc).2 = c ∧
      (insert env c id doc).2.store = c.store ∧
      (insert env c id doc).2.indexes = c.indexes ∧
      (insert env c id doc).2.btree_indexes = c.btree_indexes := by
  cases doc <;> simp [Json.is_object] at h <;> simp [insert]

theorem insert_non_object_witness :
    (Json.arr [Json.num 1]).is_object = false ∧
      (insert envAll Collection.empty "1" (Json.arr [Json.num 1])).2 = Collection.empty :=
  ⟨rfl, (insert_non_object envAll Collection.empty "1" (Json.arr [Json.num 1]) rfl).2.1⟩

theorem key_head (env : Env) (a : Json) :
    (index_key_for_value env a).data.head? =
      some (if valueKind a = 0 then 's' else if valueKind a = 1 then 'n'
        else if valueKind a = 2 then 'b' else 'j') := by
  cases a <;> simp [index_key_for_value, valueKind, String.data_append]

/-- C15: `index_key_for_value` never maps two values of different kinds (string,
number, boolean, other) to the same string; a string `s` encodes as `"s:" + s`
and the booleans as `"b:1"` and `"b:0"`. -/
theorem index_key_kinds_distinct (env : Env) (a b : Json) (h : valueKind a ≠ valueKind b) :
    index_key_for_value env a ≠ index_key_for_value env b ∧
      (∀ s, index_key_for_value env (.str s) = "s:" ++ s) ∧
      index_key_for_value env (.bool true) = "b:1" ∧
      index_key_for_value env (.bool false) = "b:0" := by
  refine ⟨?_, fun _ => rfl, rfl, rfl⟩
  intro e
  have h1 := key_head env a
  rw [e, key_head env b] at h1
  have ha : valueKind a = 0 ∨ valueKind a = 1 ∨ valueKind a = 2 ∨ valueKind a = 3 := by
    cases a <;> simp [valueKind]
  have hb : valueKind b = 0 ∨ valueKind b = 1 ∨ valueKind b = 2 ∨ valueKind b = 3 := by
    cases b <;> simp [valueKind]
  rcases ha with ha | ha | ha | ha <;> rcases hb with hb | hb | hb | hb <;>
    first | exact absurd (ha.trans hb.symm) h | (rw [ha, hb] at h1; simp at h1)

theorem index_key_kinds_distinct_witness :
    valueKind (Json.str "1") ≠ valueKind (Json.num 1) ∧
      index_key_for_value envAll (Json.str "1") ≠ index_key_for_value envAll (Json.num 1) :=
  ⟨by decide, (index_key_kinds_distinct envAll (Json.str "1") (Json.num 1) (by decide)).1⟩

theorem find_of_rangeBranch_error {env : Env} {c : Collection} {q : Json} {e : String}
    (h : rangeBranch c q = .error e) : find env c q = .error e := by
  simp only [find]
  rw [h]

theorem find_of_rangeBranch_some {env : Env} {c : Collection} {q : Json} {res : List Json}
    (h : rangeBranch c q = .ok (some res)) : find env c q = .ok res := by
  simp only [find]
  rw [h]

theorem find_of_rangeBranch_none {env : Env} {c : Collection} {q : Json}
    (h : rangeBranch c q = .ok none) :
    find env c q = .ok (if (eqBranch env c q).2 = true then (eqBranch env c q).1
      else (eqBranch env c q).1 ++ fullScan env c q) := by
  simp only [find]
  rw [h]
  rcases hb : eqBranch env c q with ⟨res, b⟩
  cases b <;> simp

theorem get_double_error {x : Json} (h : x.is_number = false) :
    ∃ e, x.get_double = .error e := by
  cases x <;> simp [Json.is_number] at h <;> exact ⟨_, rfl⟩

theorem get_double_ok {x : Json} (h : x.is_number = true) : ∃ r, x.get_double = .ok r := by
  cases x <;> simp [Json.is_number] at h
  exact ⟨_, rfl⟩

theorem rangeIds_error (bt : BTreeIndex) {cond : Json}
    (h : ∃ o ∈ rangeOperands cond, o.is_number = false) : ∃ e, rangeIds bt cond = .error e := by
  obtain ⟨o, ho, hn⟩ := h
  obtain ⟨e, he⟩ := get_double_error hn
  unfold rangeOperands at ho
  unfold rangeIds
  cases h1 : cond.contains "$eq" <;> cases h3 : cond.contains "$gt" <;>
    cases h4 : cond.contains "$lt" <;>
    simp only [h1, h3, h4, Bool.false_eq_true, if_false, if_true, Bool.and_true,
      Bool.and_false, Bool.and_self, List.mem_singleton, List.mem_cons, List.mem_nil_iff,
      or_false] at ho ⊢
  · subst ho; rw [he]; exact ⟨e, rfl⟩
  · subst ho; rw [he]; exact ⟨e, rfl⟩
  · rcases ho with ho | ho
    · subst ho; rw [he]; exact ⟨e, rfl⟩
    · subst ho
      rcases hg : (cond.get "$gt").get_double with e2 | x
      · exact ⟨e2, rfl⟩
      · rw [he]; exact ⟨e, rfl⟩
  all_goals (subst ho; rw [he]; exact ⟨e, rfl⟩)

theorem rangeIds_ok (bt : BTreeIndex) {cond : Json}
    (h : ∀ o ∈ rangeOperands cond, o.is_number = true) : ∃ ids, rangeIds bt cond = .ok ids := by
  unfold rangeOperands at h
  unfold rangeIds
  cases h1 : cond.contains "$eq" <;> cases h3 : cond.contains "$gt" <;>
    cases h4 : cond.contains "$lt" <;>
    simp only [h1, h3, h4, Bool.false_eq_true, if_false, if_true, Bool.and_true,
      Bool.and_false, Bool.and_self, List.mem_singleton, List.mem_cons, List.mem_nil_iff,
      or_false, forall_eq, forall_eq_or_imp] at h ⊢
  all_goals first
    | exact ⟨_, rfl⟩
    | (obtain ⟨x, hx⟩ := get_double_ok h; rw [hx]; exact ⟨_, rfl⟩)
    | (obtain ⟨x, hx⟩ := get_double_ok h.1
       obtain ⟨y, hy⟩ := get_double_ok h.2
       rw [hx, hy]; exact ⟨_, rfl⟩)

theorem singleField_pair {f : String} (cond : Json) (hf : f ≠ "$or") :
    singleField (.obj [(f, cond)]) = some (f, cond) := by
  simp [singleField, hf]

theorem rangeBranch_indexed {c : Collection} {f : String} {bt : BTreeIndex} {cond : Json}
    (hbt : scan c.btree_indexes f = some bt) (hf : f ≠ "$or") (hc : cond.is_object = true) :
    rangeBranch c (.obj [(f, cond)]) =
      (rangeIds bt cond >>= fun ids =>
        if ids.isEmpty then pure none else pure (some (fetch c.store ids))) := by
  simp only [rangeBranch, singleField_pair cond hf, hbt, hc]

theorem rangeBranch_unindexed {c : Collection} {f : String} {cond : Json}
    (hbt : scan c.btree_indexes f = none) : rangeBranch c (.obj [(f, cond)]) = .ok none := by
  unfold rangeBranch
  split
  · rename_i f2 cond2 hs
    split
    · rename_i bt hb _
      have : f2 = f := by
        simp only [singleField] at hs
        split at hs
        · cases hs
        · simp only [Option.some.injEq, Prod.mk.injEq] at hs
          exact hs.1.symm
      rw [this, hbt] at hb
      cases hb
    · rfl
  · rfl

theorem rangeBranch_not_single {c : Collection} {q : Json} (h : singleField q = none) :
    rangeBranch c q = .ok none := by
  unfold rangeBranch
  rw [h]
  rfl

theorem find_error_of_rangeIds {env : Env} {c : Collection} {f : String} {bt : BTreeIndex}
    {cond : Json} (hbt : scan c.btree_indexes f = some bt) (hf : f ≠ "$or")
    (hc : cond.is_object = true) {e : String} (he : rangeIds bt cond = .error e) :
    find env c (.obj [(f, cond)]) = .error e := by
  apply find_of_rangeBranch_error
  rw [rangeBranch_indexed hbt hf hc, he]
  rfl

theorem find_ok_of_rangeIds {env : Env} {c : Collection} {f : String} {bt : BTreeIndex}
    {cond : Json} (hbt : scan c.btree_indexes f = some bt) (hf : f ≠ "$or")
    (hc : cond.is_object = true) {ids : List String} (hids : rangeIds bt cond = .ok ids) :
    ∃ res, find env c (.obj [(f, cond)]) = .ok res := by
  cases hem : ids.isEmpty with
  | true =>
    have : rangeBranch c (.obj [(f, cond)]) = .ok none := by
      rw [rangeBranch_indexed hbt hf hc, hids]
      simp [bind, Except.bind, hem, pure, Except.pure]
    exact ⟨_, find_of_rangeBranch_none this⟩
  | false =>
    have : rangeBranch c (.obj [(f, cond)]) = .ok (some (fetch c.store ids)) := by
      rw [rangeBranch_indexed hbt hf hc, hids]
      simp [bind, Except.bind, hem, pure, Except.pure]
    exact ⟨_, find_of_rangeBranch_some this⟩

/-- C20: with a range index on `f`, a single-field query `{f: c}` whose
condition `c` is an object makes `find` fail with an error when an operand it
reads (`$eq` if present, otherwise the `$gt` / `$lt` present) is not a number,
and makes it return a sequence when every operand it reads is a number. -/
theorem find_range_operands (env : Env) (c : Collection) (f : String) (bt : BTreeIndex)
    (cond : Json) (hbt : scan c.btree_indexes f = some bt) (hf : f ≠ "$or")
    (hc : cond.is_object = true) :
    ((∃ o ∈ rangeOperands cond, o.is_number = false) →
        ∃ e, find env c (.obj [(f, cond)]) = .error e) ∧
      ((∀ o ∈ rangeOperands cond, o.is_number = true) →
        ∃ res, find env c (.obj [(f, cond)]) = .ok res) := by
  constructor
  · intro h
    obtain ⟨e, he⟩ := rangeIds_error bt h
    exact ⟨e, find_error_of_rangeIds hbt hf hc he⟩
  · intro h
    obtain ⟨ids, hids⟩ := rangeIds_ok bt h
    exact find_ok_of_rangeIds hbt hf hc hids

/-! ## The document table under `insert`, `find`, `remove`, `create_index` -/

theorem insert_store (env : Env) (c : Collection) (id : String) (ms : List (String × Json)) :
    (insert env c id (.obj ms)).2.store = c.store.put id (.obj (setMember ms "_id" (.str id))) :=
  rfl

theorem insert_fst (env : Env) (c : Collection) (id : String) (ms : List (String × Json)) :
    (insert env c id (.obj ms)).1 = .ok id := rfl

theorem insert_not_obj (env : Env) (c : Collection) (id : String) (doc : Json)
    (h : doc.is_object = false) : (insert env c id doc).2 = c := by
  cases doc <;> simp [Json.is_object] at h <;> simp [insert]

theorem scan_insert_indexes (env : Env) (c : Collection) (id : String)
    (ms : List (String × Json)) (f : String) :
    scan (insert env c id (.obj ms)).2.indexes f =
      (scan c.indexes f).map (fun mi =>
        if (Json.obj (setMember ms "_id" (.str id))).contains f then
          assocUpdate [] (fun ids => ids ++ [id]) mi
            (index_key_for_value env ((Json.obj (setMember ms "_id" (.str id))).get f))
        else mi) := by
  simp only [insert]
  rw [scan_map_keep]
  · congr 1
    funext mi
    simp only
    split <;> rfl
  · intro p
    split <;> rfl

theorem map_fst_insert_indexes (env : Env) (c : Collection) (id : String) (doc : Json) :
    (insert env c id doc).2.indexes.map Prod.fst = c.indexes.map Prod.fst := by
  cases hd : doc.is_object with
  | false => rw [insert_not_obj env c id doc hd]
  | true =>
    cases doc <;> simp [Json.is_object] at hd
    simp only [insert]
    apply map_fst_map_keep
    intro p
    split <;> rfl

theorem map_fst_insert_btree (env : Env) (c : Collection) (id : String) (doc : Json) :
    (insert env c id doc).2.btree_indexes.map Prod.fst = c.btree_indexes.map Prod.fst := by
  cases hd : doc.is_object with
  | false => rw [insert_not_obj env c id doc hd]
  | true =>
    cases doc <;> simp [Json.is_object] at hd
    simp only [insert]
    apply map_fst_map_keep
    intro p
    split <;> rfl

theorem scan_eq_none_of_keys {β γ : Type} {l : List (String × β)} {l2 : List (String × γ)}
    (h : l2.map Prod.fst = l.map Prod.fst) (k : String) :
    scan l2 k = none ↔ scan l k = none := by
  have key : ∀ {δ : Type} (t : List (String × δ)), scan t k = none ↔ k ∉ t.map Prod.fst := by
    intro δ t
    constructor
    · intro h0 hm
      have := (scan_isSome_iff t k).2 hm
      rw [h0] at this
      cases this
    · intro h0
      cases hs : scan t k with
      | none => rfl
      | some v =>
        exfalso
        apply h0
        apply (scan_isSome_iff t k).1
        rw [hs]
        rfl
  rw [key l2, key l, h]

theorem scan_insert_btree_none (env : Env) (c : Collection) (id : String) (doc : Json)
    (f : String) (h : scan c.btree_indexes f = none) :
    scan (insert env c id doc).2.btree_indexes f = none :=
  (scan_eq_none_of_keys (map_fst_insert_btree env c id doc) f).2 h

theorem inv_insert (env : Env) {c : Collection} (hc : Inv c) (id : String) (doc : Json) :
    Inv (insert env c id doc).2 := by
  cases hd : doc.is_object with
  | false => rw [insert_not_obj env c id doc hd]; exact hc
  | true =>
    cases doc <;> simp [Json.is_object] at hd
    rename_i ms
    have hs := HashMap.inv_put hc.store id (.obj (setMember ms "_id" (.str id)))
    refine ⟨by rw [insert_store]; exact hs, ?_⟩
    intro k d hkd
    rw [insert_store] at hkd
    have hg := (HashMap.get_eq_some_iff hs k d).2 hkd
    rw [HashMap.get_put hc.store] at hg
    by_cases hk : k = id
    · simp only [hk, if_true, Option.some.injEq] at hg
      subst hg
      refine ⟨_, rfl, ?_⟩
      rw [scan_setMember, hk]
      simp
    · simp only [hk, if_false] at hg
      exact hc.ids k d ((HashMap.get_eq_some_iff hc.store k d).1 hg)

theorem inv_create_index {env : Env} {c : Collection} (hc : Inv c) (f : String) :
    Inv (create_index env c f) := by
  have hs : (create_index env c f).store = c.store := by
    unfold create_index
    simp only
    split <;> rfl
  exact ⟨by rw [hs]; exact hc.store, by rw [hs]; exact hc.ids⟩

theorem create_index_store (env : Env) (c : Collection) (f : String) :
    (create_index env c f).store = c.store := by
  unfold create_index
  simp only
  split <;> rfl

theorem mem_fetch {store : HashMap Json} {ids : List String} {d : Json}
    (h : d ∈ fetch store ids) : ∃ k, k ∈ ids ∧ store.get k = some d := by
  simpa [fetch, List.mem_filterMap] using h

theorem mem_eqBranch {env : Env} {c : Collection} {q : Json} {d : Json}
    (h : d ∈ (eqBranch env c q).1) : ∃ k, c.store.get k = some d := by
  unfold eqBranch at h
  split at h
  · split at h
    · split at h
      · split at h
        · obtain ⟨k, -, hk⟩ := mem_fetch h
          exact ⟨k, hk⟩
        · simp at h
      · split at h
        · split at h
          · obtain ⟨k, -, hk⟩ := mem_fetch h
            exact ⟨k, hk⟩
          · simp at h
        · split at h
          · simp only [List.mem_flatMap] at h
            obtain ⟨v, -, hv⟩ := h
            split at hv
            · obtain ⟨k, -, hk⟩ := mem_fetch hv
              exact ⟨k, hk⟩
            · simp at hv
          · simp at h
    · simp at h
  · simp at h

/-- Every document `find` returns is stored in the document table. -/
theorem find_sub {env : Env} {c : Collection} (hs : HashMap.Inv c.store) {q : Json}
    {res : List Json} (h : find env c q = .ok res) {d : Json} (hd : d ∈ res) :
    ∃ k, c.store.get k = some d := by
  cases hr : rangeBranch c q with
  | error e => rw [find_of_rangeBranch_error hr] at h; cases h
  | ok r =>
    cases r with
    | some r =>
      rw [find_of_rangeBranch_some hr] at h
      cases h
      unfold rangeBranch at hr
      split at hr
      · split at hr
        · rename_i bt _ _
          cases hi : rangeIds bt _ with
          | error e => rw [hi] at hr; cases hr
          | ok ids =>
            rw [hi] at hr
            simp only [bind, Except.bind] at hr
            split at hr
            · cases hr
            · cases hr
              obtain ⟨k, -, hk⟩ := mem_fetch hd
              exact ⟨k, hk⟩
        · cases hr
      · cases hr
    | none =>
      rw [find_of_rangeBranch_none hr] at h
      cases h
      split at hd
      · exact mem_eqBranch hd
      · rcases List.mem_append.1 hd with hd | hd
        · exact mem_eqBranch hd
        · simp only [fullScan, List.mem_map, List.mem_filter] at hd
          obtain ⟨p, ⟨hp, -⟩, rfl⟩ := hd
          exact ⟨p.1, (HashMap.get_eq_some_iff hs p.1 p.2).2 hp⟩

/-! ## `remove` and reachable collections -/

theorem idOf_of_stored {c : Collection} (hc : Inv c) {k : String} {d : Json}
    (h : c.store.get k = some d) : idOf d = .ok k := by
  obtain ⟨ms, rfl, hid⟩ := hc.ids k d ((HashMap.get_eq_some_iff hc.store k d).1 h)
  simp [idOf, Json.get, hid, Json.get_string]

theorem get_id_of_stored {c : Collection} (hc : Inv c) {k : String} {d : Json}
    (h : c.store.get k = some d) : d.get "_id" = .str k := by
  obtain ⟨ms, rfl, hid⟩ := hc.ids k d ((HashMap.get_eq_some_iff hc.store k d).1 h)
  simp [Json.get, hid]

theorem map_fst_scrub (env : Env) (ix : List (String × List (String × List String)))
    (d : Json) (id : String) : (scrub env ix d id).map Prod.fst = ix.map Prod.fst := by
  unfold scrub
  apply map_fst_map_keep
  intro p
  split <;> rfl

/-- One successful step of the loop of `remove`: the state after the table
entry is erased and the indexes are scrubbed. -/
theorem inv_remove_step (env : Env) {c : Collection} (hc : Inv c) (d : Json) (k : String) :
    Inv { c with store := (c.store.remove k).2, indexes := scrub env c.indexes d k } := by
  refine ⟨HashMap.inv_remove hc.store k, ?_⟩
  intro k2 d2 h2
  have hg := (HashMap.get_eq_some_iff (HashMap.inv_remove hc.store k) k2 d2).2 h2
  rw [HashMap.get_remove hc.store] at hg
  by_cases hk : k2 = k
  · simp [hk] at hg
  · simp only [hk, if_false] at hg
    exact hc.ids k2 d2 ((HashMap.get_eq_some_iff hc.store k2 d2).1 hg)

theorem removeLoop_spec (env : Env) (ds : List Json) :
    ∀ (c : Collection) (cnt : Nat), Inv c → (∀ d ∈ ds, ∃ k, idOf d = .ok k) →
      ∃ n c2, removeLoop env ds c cnt = (.ok n, c2) ∧ Inv c2 ∧
        c2.store.size_ + n = c.store.size_ + cnt ∧
        (∀ d ∈ ds, ∀ k, idOf d = .ok k → c2.store.get k = none) ∧
        (∀ k x, c2.store.get k = some x → c.store.get k = some x) ∧
        c2.btree_indexes = c.btree_indexes ∧
        c2.indexes.map Prod.fst = c.indexes.map Prod.fst := by
  induction ds with
  | nil =>
    intro c cnt hc _
    exact ⟨cnt, c, rfl, hc, rfl, by simp, fun _ _ h => h, rfl, rfl⟩
  | cons d ds ih =>
    intro c cnt hc hid
    obtain ⟨k, hk⟩ := hid d (List.mem_cons_self _ _)
    have hrest : ∀ d ∈ ds, ∃ k, idOf d = .ok k :=
      fun d hd => hid d (List.mem_cons_of_mem _ hd)
    cases hg : c.store.get k with
    | none =>
      obtain ⟨n, c2, h1, h2, h3, h4, h5, h6, h7⟩ := ih c cnt hc hrest
      refine ⟨n, c2, ?_, h2, h3, ?_, h5, h6, h7⟩
      · simp only [removeLoop, hk]
        rw [HashMap.remove_none hg]
        exact h1
      · intro d2 hd2 k2 hk2
        rcases List.mem_cons.1 hd2 with e | hd2
        · subst e
          rw [hk] at hk2
          cases hk2
          cases h8 : c2.store.get k with
          | none => rfl
          | some x =>
            have := h5 k x h8
            rw [hg] at this
            cases this
        · exact h4 d2 hd2 k2 hk2
    | some v =>
      obtain ⟨r1, -, -, r4, -⟩ := HashMap.remove_some hc.store hg
      have hre : c.store.remove k = (true, (c.store.remove k).2) := Prod.ext r1 rfl
      have hc1 := inv_remove_step env hc d k
      obtain ⟨n, c2, h1, h2, h3, h4, h5, h6, h7⟩ := ih _ (cnt + 1) hc1 hrest
      have hsub : ∀ k2 x, c2.store.get k2 = some x → c.store.get k2 = some x := by
        intro k2 x hx
        have := h5 k2 x hx
        simp only at this
        rw [HashMap.get_remove hc.store] at this
        by_cases hk2 : k2 = k
        · simp [hk2] at this
        · simpa [hk2] using this
      refine ⟨n, c2, ?_, h2, ?_, ?_, hsub, h6, ?_⟩
      · simp only [removeLoop, hk]
        rw [hre]
        exact h1
      · simp only at h3
        omega
      · intro d2 hd2 k2 hk2
        rcases List.mem_cons.1 hd2 with e | hd2
        · subst e
          rw [hk] at hk2
          cases hk2
          cases h8 : c2.store.get k with
          | none => rfl
          | some x =>
            have := h5 k x h8
            simp only at this
            rw [HashMap.get_remove hc.store] at this
            simp at this
        · exact h4 d2 hd2 k2 hk2
      · rw [h7]
        exact map_fst_scrub env c.indexes d k

theorem remove_spec {env : Env} {c : Collection} (hc : Inv c) {q : Json} {found : List Json}
    (hf : find env c q = .ok found) :
    ∃ n c2, remove env c q = (.ok n, c2) ∧ Inv c2 ∧
      c2.store.size_ + n = c.store.size_ ∧
      (∀ d ∈ found, ∀ k, c2.store.get k ≠ some d) ∧
      (∀ k x, c2.store.get k = some x → c.store.get k = some x) ∧
      c2.btree_indexes = c.btree_indexes ∧
      c2.indexes.map Prod.fst = c.indexes.map Prod.fst := by
  have hids : ∀ d ∈ found, ∃ k, idOf d = .ok k := by
    intro d hd
    obtain ⟨k, hk⟩ := find_sub hc.store hf hd
    exact ⟨k, idOf_of_stored hc hk⟩
  obtain ⟨n, c2, h1, h2, h3, h4, h5, h6, h7⟩ := removeLoop_spec env found c 0 hc hids
  refine ⟨n, c2, ?_, h2, h3, ?_, h5, h6, h7⟩
  · simp only [remove, hf]
    exact h1
  · intro d hd k hk
    have h8 := h4 d hd k (idOf_of_stored h2 hk)
    rw [hk] at h8
    cases h8

theorem inv_remove_query {env : Env} {c : Collection} (hc : Inv c) (q : Json) :
    Inv (remove env c q).2 := by
  cases hf : find env c q with
  | error e =>
    simp only [remove, hf]
    exact hc
  | ok found =>
    obtain ⟨n, c2, h1, h2, -⟩ := remove_spec hc hf
    rw [h1]
    exact h2

theorem inv_empty : Inv Collection.empty :=
  ⟨HashMap.inv_new 16 _ (by decide), by
    intro k d h
    simp [Collection.empty, HashMap.new, HashMap.items, HashMap.flatten_replicate_nil] at h⟩

theorem inv_of_reachable_collection {env : Env} {c : Collection} (h : Reachable env c) :
    Inv c := by
  induction h with
  | empty => exact inv_empty
  | insert id doc _ _ ih => exact inv_insert env ih id doc
  | remove q _ ih => exact inv_remove_query ih q
  | create_index f _ ih => exact inv_create_index ih f

/-- C12: in a reachable collection, when `find(q)` succeeds `remove(q)` returns
the number of documents it deleted: `store.size()` afterwards plus the returned
count is `store.size()` before, also when `find(q)` lists a document more than
once, and every document `find(q)` returned is absent from the table
afterwards. -/
theorem remove_count (env : Env) {c : Collection} (h : Reachable env c) (q : Json)
    (found : List Json) (hf : find env c q = .ok found) :
    ∃ n, (remove env c q).1 = .ok n ∧
      (remove env c q).2.store.size + n = c.store.size ∧
      ∀ d ∈ found, ∀ k, (remove env c q).2.store.get k ≠ some d := by
  obtain ⟨n, c2, h1, -, h3, h4, -⟩ := remove_spec (inv_of_reachable_collection h) hf
  rw [h1]
  exact ⟨n, rfl, h3, h4⟩

/-- C16: in a reachable collection every entry `(key, doc)` of the document
table has `doc["_id"] == key`, no two entries share an `_id`, and `insert`,
`remove` and `create_index` leave the `_id` of every stored document as it
was. -/
theorem stored_id_is_key (env : Env) {c : Collection} (h : Reachable env c) :
    (∀ k d, (k, d) ∈ c.store.items → d.get "_id" = .str k) ∧
      (∀ k1 d1 k2 d2, (k1, d1) ∈ c.store.items → (k2, d2) ∈ c.store.items →
        d1.get "_id" = d2.get "_id" → k1 = k2 ∧ d1 = d2) ∧
      (∀ id doc k d d2, c.store.get k = some d →
        (insert env c id doc).2.store.get k = some d2 → d2.get "_id" = d.get "_id") ∧
      (∀ q k d d2, c.store.get k = some d →
        (remove env c q).2.store.get k = some d2 → d2.get "_id" = d.get "_id") ∧
      (∀ f k d d2, c.store.get k = some d →
        (create_index env c f).store.get k = some d2 → d2.get "_id" = d.get "_id") := by
  have hc := inv_of_reachable_collection h
  have key : ∀ {c2 : Collection}, Inv c2 → ∀ k d d2, c.store.get k = some d →
      c2.store.get k = some d2 → d2.get "_id" = d.get "_id" := by
    intro c2 h2 k d d2 hd hd2
    rw [get_id_of_stored hc hd, get_id_of_stored h2 hd2]
  refine ⟨?_, ?_, ?_, ?_, ?_⟩
  · intro k d hkd
    exact get_id_of_stored hc ((HashMap.get_eq_some_iff hc.store k d).2 hkd)
  · intro k1 d1 k2 d2 h1 h2 e
    have g1 := (HashMap.get_eq_some_iff hc.store k1 d1).2 h1
    have g2 := (HashMap.get_eq_some_iff hc.store k2 d2).2 h2
    rw [get_id_of_stored hc g1, get_id_of_stored hc g2] at e
    have hk : k1 = k2 := by
      cases e
      rfl
    subst hk
    rw [g1] at g2
    exact ⟨rfl, Option.some.inj g2⟩
  · intro id doc k d d2 hd hd2
    exact key (inv_insert env hc id doc) k d d2 hd hd2
  · intro q k d d2 hd hd2
    exact key (inv_remove_query hc q) k d d2 hd hd2
  · intro f k d d2 hd hd2
    exact key (inv_create_index hc f) k d d2 hd hd2

/-! ## Queries on an indexed field after `insert` and `remove` -/

theorem eqBranch_eq (env : Env) {c : Collection} {f : String}
    {mi : List (String × List String)} (v : Json)
    (hidx : scan c.indexes f = some mi) (hf : f ≠ "$or") :
    eqBranch env c (.obj [(f, .obj [("$eq", v)])]) =
      (scan mi (index_key_for_value env v)).elim ([], false)
        (fun ids => (fetch c.store ids, true)) := by
  cases hs : scan mi (index_key_for_value env v) <;>
    simp [eqBranch, singleField_pair _ hf, hidx, Json.is_object, Json.contains, Json.get,
      scan, hs]

theorem eqBranch_bare (env : Env) {c : Collection} {f : String}
    {mi : List (String × List String)} (v : Json) (hv : v.is_object = false)
    (hidx : scan c.indexes f = some mi) (hf : f ≠ "$or") :
    eqBranch env c (.obj [(f, v)]) =
      (scan mi (index_key_for_value env v)).elim ([], false)
        (fun ids => (fetch c.store ids, true)) := by
  cases hs : scan mi (index_key_for_value env v) <;>
    simp [eqBranch, singleField_pair _ hf, hidx, hv, hs]

theorem eqBranch_in (env : Env) {c : Collection} {f : String}
    {mi : List (String × List String)} (vs : Json)
    (hidx : scan c.indexes f = some mi) (hf : f ≠ "$or") :
    eqBranch env c (.obj [(f, .obj [("$in", vs)])]) =
      (vs.elems.flatMap (fun v => fetch c.store (bucket mi (index_key_for_value env v))),
        true) := by
  simp [eqBranch, singleField_pair _ hf, hidx, Json.is_object, Json.contains, Json.get, scan]
  congr 1
  funext v
  unfold bucket
  cases scan mi (index_key_for_value env v) <;> rfl

theorem scan_insert_btree (env : Env) (c : Collection) (id : String)
    (ms : List (String × Json)) (f : String) (bt : BTreeIndex) (x : ℚ)
    (hbt : scan c.btree_indexes f = some bt) (hf : f ≠ "_id")
    (hv : scan ms f = some (.num x)) :
    scan (insert env c id (.obj ms)).2.btree_indexes f = some (bt.insert x id) := by
  have hcon : (Json.obj (setMember ms "_id" (.str id))).contains f = true := by
    simp [Json.contains, scan_setMember, hf, hv]
  have hget : (Json.obj (setMember ms "_id" (.str id))).get f = .num x := by
    simp [Json.get, scan_setMember, hf, hv]
  simp only [insert]
  rw [scan_map_keep]
  · rw [hbt]
    simp only [Option.map_some', hcon, hget]
  · intro p
    split <;> rfl

theorem find_after_insert (env : Env) (c : Collection) (f : String)
    (mi : List (String × List String)) (id : String) (ms : List (String × Json)) (v : Json)
    (hidx : scan c.indexes f = some mi) (hbt : scan c.btree_indexes f = none)
    (hf1 : f ≠ "_id") (hf2 : f ≠ "$or") (hv : scan ms f = some v)
    (hpos : 0 < c.store.buckets.length) :
    ∃ res, find env (insert env c id (.obj ms)).2 (.obj [(f, .obj [("$eq", v)])]) = .ok res ∧
      Json.obj (setMember ms "_id" (.str id)) ∈ res := by
  have hb1 := scan_insert_btree_none env c id (.obj ms) f hbt
  have hr : rangeBranch (insert env c id (.obj ms)).2 (.obj [(f, .obj [("$eq", v)])]) =
      .ok none := rangeBranch_unindexed hb1
  have hcon : (Json.obj (setMember ms "_id" (.str id))).contains f = true := by
    simp [Json.contains, scan_setMember, hf1, hv]
  have hget : (Json.obj (setMember ms "_id" (.str id))).get f = v := by
    simp [Json.get, scan_setMember, hf1, hv]
  have hi1 : scan (insert env c id (.obj ms)).2.indexes f =
      some (assocUpdate [] (fun ids => ids ++ [id]) mi (index_key_for_value env v)) := by
    rw [scan_insert_indexes, hidx]
    simp [hcon, hget]
  have he := eqBranch_eq env v hi1 hf2
  rw [scan_assocUpdate] at he
  simp only [if_true, Option.elim_some] at he
  refine ⟨_, find_of_rangeBranch_none hr, ?_⟩
  rw [he]
  simp only [if_true]
  simp only [fetch, List.mem_filterMap]
  refine ⟨id, by simp, ?_⟩
  rw [insert_store]
  exact HashMap.get_put_self _ hpos _ _

/-- C7: with an equality index and no range index on a field `f` other than
`"_id"` and `"$or"`, after `id = insert(doc)` of an object `doc` that has `f`
with value `v`, `find({f: {"$eq": v}})` returns a sequence that contains the
stored document whose `_id` is `id`. -/
theorem find_eq_after_insert (env : Env) (c : Collection) (f : String)
    (mi : List (String × List String)) (id : String) (ms : List (String × Json)) (v : Json)
    (hidx : scan c.indexes f = some mi) (hbt : scan c.btree_indexes f = none)
    (hf1 : f ≠ "_id") (hf2 : f ≠ "$or") (hv : scan ms f = some v)
    (hpos : 0 < c.store.buckets.length) :
    (insert env c id (.obj ms)).1 = .ok id ∧
      (insert env c id (.obj ms)).2.store.get id =
        some (Json.obj (setMember ms "_id" (.str id))) ∧
      (Json.obj (setMember ms "_id" (.str id))).get "_id" = .str id ∧
      ∃ res, find env (insert env c id (.obj ms)).2 (.obj [(f, .obj [("$eq", v)])]) = .ok res ∧
        Json.obj (setMember ms "_id" (.str id)) ∈ res := by
  refine ⟨rfl, ?_, ?_, find_after_insert env c f mi id ms v hidx hbt hf1 hf2 hv hpos⟩
  · rw [insert_store]
    exact HashMap.get_put_self _ hpos _ _
  · simp [Json.get, scan_setMember]

theorem find_ok_unindexed (env : Env) {c : Collection} {f : String} (cond : Json)
    (hbt : scan c.btree_indexes f = none) : ∃ res, find env c (.obj [(f, cond)]) = .ok res :=
  ⟨_, find_of_rangeBranch_none (rangeBranch_unindexed hbt)⟩

/-- After `remove(q)`, no query returns a document that `find(q)` had listed. -/
theorem not_mem_find_after_remove {env : Env} {c : Collection} (hc : Inv c) {q : Json}
    {found : List Json} (hq : find env c q = .ok found) {d : Json} (hd : d ∈ found)
    {q2 : Json} {res : List Json} (h2 : find env (remove env c q).2 q2 = .ok res) :
    d ∉ res := by
  obtain ⟨n, c2, h1, hinv, -, habs, -⟩ := remove_spec hc hq
  rw [h1] at h2
  intro hmem
  obtain ⟨k, hk⟩ := find_sub hinv.store h2 hmem
  exact habs d hd k hk

/-- C9: with no range index on `f` (so that the equality index on `f`, if any,
answers the query), after a document with field `f` = `v` is inserted and then
removed by `remove`, the query `find({f: {"$eq": v}})` returns a sequence that
does not contain it. -/
theorem find_eq_after_remove (env : Env) {c : Collection} (h : Reachable env c) (f : String)
    (hbt : scan c.btree_indexes f = none) (id : String) (ms : List (String × Json)) (v : Json)
    (q : Json) (found : List Json)
    (hq : find env (insert env c id (.obj ms)).2 q = .ok found)
    (hd : Json.obj (setMember ms "_id" (.str id)) ∈ found) :
    ∃ res, find env (remove env (insert env c id (.obj ms)).2 q).2
        (.obj [(f, .obj [("$eq", v)])]) = .ok res ∧
      Json.obj (setMember ms "_id" (.str id)) ∉ res := by
  have hc1 := inv_insert env (inv_of_reachable_collection h) id (.obj ms)
  obtain ⟨n, c2, h1, -, -, -, -, h6, -⟩ := remove_spec hc1 hq
  have hb2 : scan (remove env (insert env c id (.obj ms)).2 q).2.btree_indexes f = none := by
    rw [h1]
    simp only
    rw [h6]
    exact scan_insert_btree_none env c id (.obj ms) f hbt
  obtain ⟨res, hres⟩ := find_ok_unindexed env (.obj [("$eq", v)]) hb2
  exact ⟨res, hres, not_mem_find_after_remove hc1 hq hd hres⟩

/-- C8, amended: with a range index on a field `f` other than `"_id"`, after a
document whose `f` is the number `x` is inserted and then removed by `remove`,
`find({f: {"$eq": x}})` returns a sequence that does not contain it, although
`remove` leaves the range index as `insert` wrote it, the id still recorded
under `x`. -/
theorem find_range_after_remove (env : Env) {c : Collection} (h : Reachable env c)
    (f : String) (bt : BTreeIndex) (hbt : scan c.btree_indexes f = some bt) (hf : f ≠ "_id")
    (id : String) (ms : List (String × Json)) (x : ℚ) (hv : scan ms f = some (.num x))
    (q : Json) (found : List Json)
    (hq : find env (insert env c id (.obj ms)).2 q = .ok found)
    (hd : Json.obj (setMember ms "_id" (.str id)) ∈ found) :
    (∃ res, find env (remove env (insert env c id (.obj ms)).2 q).2
        (.obj [(f, .obj [("$eq", .num x)])]) = .ok res ∧
      Json.obj (setMember ms "_id" (.str id)) ∉ res) ∧
      scan (remove env (insert env c id (.obj ms)).2 q).2.btree_indexes f =
        some (bt.insert x id) := by
  have hc1 := inv_insert env (inv_of_reachable_collection h) id (.obj ms)
  obtain ⟨n, c2, h1, -, -, -, -, h6, -⟩ := remove_spec hc1 hq
  have hbt2 : scan (remove env (insert env c id (.obj ms)).2 q).2.btree_indexes f =
      some (bt.insert x id) := by
    rw [h1]
    simp only
    rw [h6]
    exact scan_insert_btree env c id ms f bt x hbt hf hv
  refine ⟨?_, hbt2⟩
  have hok : ∃ res, find env (remove env (insert env c id (.obj ms)).2 q).2
      (.obj [(f, .obj [("$eq", .num x)])]) = .ok res := by
    by_cases hf : f = "$or"
    · exact ⟨_, find_of_rangeBranch_none (rangeBranch_not_single (by simp [singleField, hf]))⟩
    · have hids : rangeIds (bt.insert x id) (.obj [("$eq", .num x)]) =
          .ok ((bt.insert x id).search x) := by
        simp [rangeIds, Json.contains, scan, Json.get, Json.get_double, bind,
          Except.bind, pure, Except.pure]
      exact find_ok_of_rangeIds hbt2 hf rfl hids
  obtain ⟨res, hres⟩ := hok
  exact ⟨res, hres, not_mem_find_after_remove hc1 hq hd hres⟩

/-! ## `create_index` -/

theorem bucket_assocUpdate (g : List String → List String) (mi : List (String × List String))
    (k0 k : String) :
    bucket (assocUpdate [] g mi k0) k = if k = k0 then g (bucket mi k0) else bucket mi k := by
  unfold bucket
  rw [scan_assocUpdate]
  split <;> rfl

theorem bucket_nil (k : String) : bucket [] k = [] := rfl

theorem scan_of_bucket_ne_nil {mi : List (String × List String)} {k : String}
    (h : bucket mi k ≠ []) : scan mi k = some (bucket mi k) := by
  unfold bucket at h ⊢
  cases hs : scan mi k with
  | none => rw [hs] at h; exact absurd rfl h
  | some ids => rfl

/-- The buckets of the map that the equality branch of `create_index` builds
from the entries `l` of the document table. -/
theorem bucket_foldl (env : Env) (f : String) (l : List (String × Json)) :
    ∀ (mi0 : List (String × List String)) (k : String),
      bucket (l.foldl (fun mi p =>
          if p.2.contains f then
            assocUpdate [] (fun ids => ids ++ [p.1]) mi (index_key_for_value env (p.2.get f))
          else mi) mi0) k =
        bucket mi0 k ++
          (l.filter (fun p => p.2.contains f &&
            decide (index_key_for_value env (p.2.get f) = k))).map Prod.fst := by
  induction l with
  | nil => intro mi0 k; simp
  | cons p ps ih =>
    intro mi0 k
    simp only [List.foldl_cons]
    rw [ih]
    cases hc : p.2.contains f with
    | false => simp [hc]
    | true =>
      simp only [if_true]
      rw [bucket_assocUpdate]
      by_cases hk : k = index_key_for_value env (p.2.get f)
      · subst hk
        simp [hc]
      · have hk2 : ¬ index_key_for_value env (p.2.get f) = k := fun e => hk e.symm
        simp [hc, hk, hk2]

theorem create_index_numeric (env : Env) {c : Collection} {f : String}
    (h : ∃ p ∈ c.store.items, p.2.contains f = true ∧ (p.2.get f).is_number = true) :
    (create_index env c f).indexes = c.indexes ∧
      ∃ bt, (create_index env c f).btree_indexes = assocSet c.btree_indexes f bt := by
  have hany : c.store.items.any (fun p => p.2.contains f && (p.2.get f).is_number) = true := by
    rw [List.any_eq_true]
    obtain ⟨p, hp, h1, h2⟩ := h
    exact ⟨p, hp, by simp [h1, h2]⟩
  unfold create_index
  simp only [hany, if_true]
  exact ⟨trivial, _, rfl⟩

theorem create_index_plain (env : Env) {c : Collection} {f : String}
    (h : ¬ ∃ p ∈ c.store.items, p.2.contains f = true ∧ (p.2.get f).is_number = true) :
    (create_index env c f).btree_indexes = c.btree_indexes ∧
      (create_index env c f).indexes =
        assocSet c.indexes f (c.store.items.foldl (fun mi p =>
          if p.2.contains f then
            assocUpdate [] (fun ids => ids ++ [p.1]) mi (index_key_for_value env (p.2.get f))
          else mi) []) := by
  have hany : c.store.items.any (fun p => p.2.contains f && (p.2.get f).is_number) = false := by
    cases ha : c.store.items.any (fun p => p.2.contains f && (p.2.get f).is_number) with
    | false => rfl
    | true =>
      exfalso
      apply h
      rw [List.any_eq_true] at ha
      obtain ⟨p, hp, hb⟩ := ha
      simp only [Bool.and_eq_true] at hb
      exact ⟨p, hp, hb.1, hb.2⟩
  unfold create_index
  simp only [hany, Bool.false_eq_true, if_false]
  exact ⟨trivial, trivial⟩

/-- C13: `create_index(f)` installs a range index on `f` exactly when some
stored document has a numeric `f` (the equality indexes then stay as they
were); otherwise it installs an equality index on `f` (the range indexes stay
as they were) in which the id of every stored document that has `f` appears
exactly once in the bucket of the encoded value of its `f`, and no other id
appears in any bucket. The keys of the document table are distinct, as in every
reachable state. -/
theorem create_index_kind (env : Env) (c : Collection) (f : String)
    (hnd : (c.store.items.map Prod.fst).Nodup) :
    ((∃ p ∈ c.store.items, p.2.contains f = true ∧ (p.2.get f).is_number = true) →
        (create_index env c f).indexes = c.indexes ∧
        ∃ bt, (create_index env c f).btree_indexes = assocSet c.btree_indexes f bt ∧
          scan (create_index env c f).btree_indexes f = some bt) ∧
      ((¬ ∃ p ∈ c.store.items, p.2.contains f = true ∧ (p.2.get f).is_number = true) →
        (create_index env c f).btree_indexes = c.btree_indexes ∧
        ∃ mi, (create_index env c f).indexes = assocSet c.indexes f mi ∧
          scan (create_index env c f).indexes f = some mi ∧
          (∀ id d, (id, d) ∈ c.store.items → d.contains f = true →
            (bucket mi (index_key_for_value env (d.get f))).count id = 1) ∧
          (∀ k id, id ∈ bucket mi k →
            ∃ d, (id, d) ∈ c.store.items ∧ d.contains f = true ∧
              index_key_for_value env (d.get f) = k)) := by
  constructor
  · intro h
    obtain ⟨h1, bt, h2⟩ := create_index_numeric env h
    refine ⟨h1, bt, h2, ?_⟩
    rw [h2, scan_assocSet]
    simp
  · intro h
    obtain ⟨h1, h2⟩ := create_index_plain env h
    refine ⟨h1, _, h2, by rw [h2, scan_assocSet]; simp, ?_, ?_⟩
    · intro id d hmem hcon
      rw [bucket_foldl, bucket_nil, List.nil_append]
      apply List.count_eq_one_of_mem
      · exact List.Nodup.sublist ((List.filter_sublist _).map Prod.fst) hnd
      · exact List.mem_map.2 ⟨(id, d), List.mem_filter.2 ⟨hmem, by simp [hcon]⟩, rfl⟩
    · intro k id hid
      rw [bucket_foldl, bucket_nil, List.nil_append] at hid
      obtain ⟨p, hp, rfl⟩ := List.mem_map.1 hid
      rw [List.mem_filter] at hp
      simp only [Bool.and_eq_true, decide_eq_true_eq] at hp
      exact ⟨p.2, hp.1, hp.2.1, hp.2.2⟩

/-! ## Queries served by an equality index; the two index maps -/

theorem find_in_served {env : Env} {c : Collection} {f : String}
    {mi : List (String × List String)} (hidx : scan c.indexes f = some mi)
    (hbt : scan c.btree_indexes f = none) (hf : f ≠ "$or") (vs : Json) :
    find env c (.obj [(f, .obj [("$in", vs)])]) =
      .ok (vs.elems.flatMap (fun v => fetch c.store (bucket mi (index_key_for_value env v)))) := by
  rw [find_of_rangeBranch_none (rangeBranch_unindexed hbt), eqBranch_in env vs hidx hf]
  simp only [if_true]

/-- C10, as stated, fails: in the trace `insert({"tag": "x"})`,
`create_index("tag")` the field `tag` has an equality index with the single
bucket `s:x`; the queries `{"tag": "y"}` and `{"tag": {"$eq": "y"}}` find no
bucket, and `find` then runs the full scan: with an evaluator that accepts
every document it returns the stored document, with one that accepts none it
returns nothing. -/
theorem find_unbucketed_counterexample :
    scan traceTag.indexes "tag" = some [("s:x", ["1"])] ∧
      scan traceTag.btree_indexes "tag" = none ∧
      scan [("s:x", ["1"])] (index_key_for_value envAll (.str "y")) = none ∧
      find envAll traceTag (.obj [("tag", .str "y")]) =
        .ok [.obj [("_id", .str "1"), ("tag", .str "x")]] ∧
      find envAll traceTag (.obj [("tag", .obj [("$eq", .str "y")])]) =
        .ok [.obj [("_id", .str "1"), ("tag", .str "x")]] ∧
      find envNone traceTag (.obj [("tag", .str "y")]) = .ok [] := by
  decide!

/-- C10, amended: for a single-field query `{f: c}` (`f` is not `"$or"`) on a
field with an equality index and no range index: if `c` is `{"$in": vs}`, `find`
is index-served and returns exactly the documents fetched for the ids of the
buckets of the listed values; if `c` is a bare non-object value or `{"$eq": v}`
and a bucket exists for the encoded value, `find` is index-served and returns
exactly the documents fetched for the ids of that bucket; if `c` is a bare
value or `{"$eq": v}` and no bucket exists, `find` returns the result of the
full scan with the external evaluator. -/
theorem find_equality_indexed (env : Env) (c : Collection) (f : String)
    (mi : List (String × List String)) (hidx : scan c.indexes f = some mi)
    (hbt : scan c.btree_indexes f = none) (hf : f ≠ "$or") :
    (∀ vs, find env c (.obj [(f, .obj [("$in", vs)])]) =
        .ok (vs.elems.flatMap (fun v => fetch c.store (bucket mi (index_key_for_value env v))))) ∧
      (∀ v ids, scan mi (index_key_for_value env v) = some ids →
        find env c (.obj [(f, .obj [("$eq", v)])]) = .ok (fetch c.store ids) ∧
        (v.is_object = false → find env c (.obj [(f, v)]) = .ok (fetch c.store ids))) ∧
      (∀ v, scan mi (index_key_for_value env v) = none →
        find env c (.obj [(f, .obj [("$eq", v)])]) =
          .ok (fullScan env c (.obj [(f, .obj [("$eq", v)])])) ∧
        (v.is_object = false →
          find env c (.obj [(f, v)]) = .ok (fullScan env c (.obj [(f, v)])))) := by
  refine ⟨?_, ?_, ?_⟩
  · intro vs
    exact find_in_served hidx hbt hf vs
  · intro v ids hs
    constructor
    · rw [find_of_rangeBranch_none (rangeBranch_unindexed hbt), eqBranch_eq env v hidx hf, hs]
      rfl
    · intro hv
      rw [find_of_rangeBranch_none (rangeBranch_unindexed hbt), eqBranch_bare env v hv hidx hf, hs]
      rfl
  · intro v hs
    constructor
    · rw [find_of_rangeBranch_none (rangeBranch_unindexed hbt), eqBranch_eq env v hidx hf, hs]
      rfl
    · intro hv
      rw [find_of_rangeBranch_none (rangeBranch_unindexed hbt), eqBranch_bare env v hv hidx hf, hs]
      rfl

theorem find_equality_indexed_witness :
    scan traceTag.indexes "tag" = some [("s:x", ["1"])] ∧
      scan traceTag.btree_indexes "tag" = none ∧ "tag" ≠ "$or" ∧
      find envAll traceTag (.obj [("tag", .obj [("$in", .arr [.str "y"])])]) =
        .ok ((Json.arr [.str "y"]).elems.flatMap (fun v =>
          fetch traceTag.store (bucket [("s:x", ["1"])] (index_key_for_value envAll v)))) :=
  ⟨by decide!, by decide!, by decide,
   (find_equality_indexed envAll traceTag "tag" [("s:x", ["1"])] (by decide!) (by decide!)
      (by decide)).1 (.arr [.str "y"])⟩

theorem keys_nodup_of_reachable {env : Env} {c : Collection} (h : Reachable env c) :
    (c.indexes.map Prod.fst).Nodup ∧ (c.btree_indexes.map Prod.fst).Nodup := by
  induction h with
  | empty => exact ⟨List.nodup_nil, List.nodup_nil⟩
  | insert id doc _ _ ih =>
    rw [map_fst_insert_indexes, map_fst_insert_btree]
    exact ih
  | @remove c q hr ih =>
    cases hf : find env c q with
    | error e =>
      simp only [remove, hf]
      exact ih
    | ok found =>
      obtain ⟨n, c2, h1, -, -, -, -, h6, h7⟩ := remove_spec (inv_of_reachable_collection hr) hf
      rw [h1]
      simp only
      rw [h6, h7]
      exact ih
  | @create_index c f hr ih =>
    by_cases hn : ∃ p ∈ c.store.items, p.2.contains f = true ∧ (p.2.get f).is_number = true
    · obtain ⟨h1, bt, h2⟩ := create_index_numeric env hn
      rw [h1, h2]
      exact ⟨ih.1, map_fst_assocSet _ _ _ ih.2⟩
    · obtain ⟨h1, h2⟩ := create_index_plain env hn
      rw [h1, h2]
      exact ⟨map_fst_assocSet _ _ _ ih.1, ih.2⟩

/-- C14, as stated, fails: the trace `insert({"tag": "x"})`,
`create_index("tag")`, `insert({"tag": 7})`, `create_index("tag")` is reachable
and leaves `tag` as a key of both the equality-index map and the range-index
map. -/
theorem both_index_maps_counterexample :
    Reachable envAll traceBoth ∧
      "tag" ∈ traceBoth.indexes.map Prod.fst ∧
      "tag" ∈ traceBoth.btree_indexes.map Prod.fst ∧
      (scan traceBoth.indexes "tag").isSome = true ∧
      (scan traceBoth.btree_indexes "tag").isSome = true :=
  ⟨Reachable.create_index "tag"
     (Reachable.insert "2" docTag7
       (Reachable.create_index "tag"
         (Reachable.insert "1" docTagX Reachable.empty (by decide!)))
       (by decide!)),
   by decide!, by decide!, by decide!, by decide!⟩

/-- C14, amended: in every reachable collection each field name is a key of
the equality-index map at most once and a key of the range-index map at most
once; a `create_index` that installs a range index on a field overwrites the
entry of that field in the range-index map and leaves the equality-index map,
with any prior equality index on that field, unchanged. -/
theorem index_maps_keys (env : Env) {c : Collection} (h : Reachable env c) :
    (c.indexes.map Prod.fst).Nodup ∧ (c.btree_indexes.map Prod.fst).Nodup ∧
      ∀ f, (∃ p ∈ c.store.items, p.2.contains f = true ∧ (p.2.get f).is_number = true) →
        (create_index env c f).indexes = c.indexes ∧
        ∃ bt, (create_index env c f).btree_indexes = assocSet c.btree_indexes f bt := by
  obtain ⟨h1, h2⟩ := keys_nodup_of_reachable h
  exact ⟨h1, h2, fun f hn => create_index_numeric env hn⟩

theorem index_maps_keys_witness :
    Reachable envAll traceTag ∧ (traceTag.indexes.map Prod.fst).Nodup :=
  ⟨Reachable.create_index "tag" (Reachable.insert "1" docTagX Reachable.empty (by decide!)),
   (index_maps_keys envAll
     (Reachable.create_index "tag"
       (Reachable.insert "1" docTagX Reachable.empty (by decide!)))).1⟩

/-! ## The `$in` query and the two-document scenario -/

theorem consistent_empty (env : Env) : Consistent env Collection.empty := by
  intro f mi hs
  simp [Collection.empty, scan] at hs

theorem consistent_create_index {env : Env} {c : Collection} (hc : Inv c)
    (h : Consistent env c) (f0 : String) : Consistent env (create_index env c f0) := by
  by_cases hn : ∃ p ∈ c.store.items, p.2.contains f0 = true ∧ (p.2.get f0).is_number = true
  · obtain ⟨h1, -⟩ := create_index_numeric env hn
    intro f mi hs
    rw [h1] at hs
    rw [create_index_store]
    exact h f mi hs
  · obtain ⟨-, h2⟩ := create_index_plain env hn
    intro f mi hs
    rw [h2, scan_assocSet] at hs
    rw [create_index_store]
    by_cases hf : f = f0
    · subst hf
      simp only [if_true, Option.some.injEq] at hs
      subst hs
      intro k
      rw [bucket_foldl, bucket_nil, List.nil_append]
      refine ⟨List.Nodup.sublist ((List.filter_sublist _).map Prod.fst) hc.store.nodup, ?_⟩
      intro id
      simp only [List.mem_map, List.mem_filter, Bool.and_eq_true, decide_eq_true_eq]
      constructor
      · rintro ⟨p, ⟨hp, h3, h4⟩, rfl⟩
        exact ⟨p.2, (HashMap.get_eq_some_iff hc.store p.1 p.2).2 hp, h3, h4⟩
      · rintro ⟨d, hd, h3, h4⟩
        exact ⟨(id, d), ⟨(HashMap.get_eq_some_iff hc.store id d).1 hd, h3, h4⟩, rfl⟩
    · simp only [hf, if_false] at hs
      exact h f mi hs

theorem consistent_insert {env : Env} {c : Collection} (hc : Inv c) (h : Consistent env c)
    (id : String) (doc : Json) (fresh : c.store.get id = none) :
    Consistent env (insert env c id doc).2 := by
  cases hd : doc.is_object with
  | false => rw [insert_not_obj env c id doc hd]; exact h
  | true =>
    cases doc <;> simp [Json.is_object] at hd
    rename_i ms
    intro f mi2 hs
    rw [scan_insert_indexes] at hs
    cases hold : scan c.indexes f with
    | none => rw [hold] at hs; cases hs
    | some mi =>
      rw [hold] at hs
      simp only [Option.map_some', Option.some.injEq] at hs
      intro k
      obtain ⟨hnd, hiff⟩ := h f mi hold k
      have hnot : ∀ k2, id ∉ bucket mi k2 := by
        intro k2 hmem
        obtain ⟨d, hd, -⟩ := ((h f mi hold k2).2 id).1 hmem
        rw [fresh] at hd
        cases hd
      have hget : ∀ id2, (insert env c id (.obj ms)).2.store.get id2 =
          if id2 = id then some (.obj (setMember ms "_id" (.str id))) else c.store.get id2 := by
        intro id2
        rw [insert_store, HashMap.get_put hc.store]
      cases hcon : (Json.obj (setMember ms "_id" (.str id))).contains f with
      | false =>
        simp only [hcon, Bool.false_eq_true, if_false] at hs
        subst hs
        refine ⟨hnd, ?_⟩
        intro id2
        rw [hiff id2, hget]
        by_cases e : id2 = id
        · subst e
          simp [fresh, hcon]
        · simp [e]
      | true =>
        simp only [hcon, if_true] at hs
        subst hs
        rw [bucket_assocUpdate]
        by_cases hk : k = index_key_for_value env
            ((Json.obj (setMember ms "_id" (.str id))).get f)
        · simp only [hk, if_true]
          constructor
          · rw [List.nodup_append]
            refine ⟨(h f mi hold _).1, List.nodup_singleton _, ?_⟩
            intro a ha hb
            rw [List.mem_singleton] at hb
            subst hb
            exact hnot _ ha
          · intro id2
            rw [List.mem_append, List.mem_singleton, ((h f mi hold _).2 id2), hget]
            by_cases e : id2 = id
            · subst e
              simp [fresh, hcon]
            · simp [e]
        · simp only [hk, if_false]
          refine ⟨hnd, ?_⟩
          intro id2
          rw [hiff id2, hget]
          by_cases e : id2 = id
          · subst e
            have hk2 : ¬ index_key_for_value env
                ((Json.obj (setMember ms "_id" (.str id2))).get f) = k := fun e2 => hk e2.symm
            simp [fresh, hk2]
          · simp [e]

theorem scan_scrub (env : Env) (ix : List (String × List (String × List String)))
    (d : Json) (id : String) (f : String) :
    scan (scrub env ix d id) f =
      (scan ix f).map (fun mi =>
        if d.contains f then
          assocUpdate [] (fun ids => ids.filter (fun x => x ≠ id)) mi
            (index_key_for_value env (d.get f))
        else mi) := by
  unfold scrub
  rw [scan_map_keep]
  · congr 1
    funext mi
    simp only
    split <;> rfl
  · intro p
    split <;> rfl

/-- One successful step of the loop of `remove` keeps the equality indexes
consistent, when the found document is the one stored under its id. -/
theorem consistent_remove_step {env : Env} {c : Collection} (hc : Inv c)
    (h : Consistent env c) {d : Json} {id : String} (hd : c.store.get id = some d) :
    Consistent env
      { c with store := (c.store.remove id).2, indexes := scrub env c.indexes d id } := by
  intro f mi2 hs
  simp only at hs
  rw [scan_scrub] at hs
  cases hold : scan c.indexes f with
  | none => rw [hold] at hs; cases hs
  | some mi =>
    rw [hold] at hs
    simp only [Option.map_some', Option.some.injEq] at hs
    intro k
    obtain ⟨hnd, hiff⟩ := h f mi hold k
    have hget : ∀ id2, (c.store.remove id).2.get id2 =
        if id2 = id then none else c.store.get id2 := fun id2 => HashMap.get_remove hc.store id id2
    simp only
    cases hcon : d.contains f with
    | false =>
      simp only [hcon, Bool.false_eq_true, if_false] at hs
      subst hs
      refine ⟨hnd, ?_⟩
      intro id2
      rw [hiff id2, hget]
      by_cases e : id2 = id
      · subst e
        simp [hd, hcon]
      · simp [e]
    | true =>
      simp only [hcon, if_true] at hs
      subst hs
      rw [bucket_assocUpdate]
      by_cases hk : k = index_key_for_value env (d.get f)
      · simp only [hk, if_true]
        refine ⟨(h f mi hold _).1.filter _, ?_⟩
        intro id2
        rw [List.mem_filter, ((h f mi hold _).2 id2), hget]
        by_cases e : id2 = id
        · subst e
          simp
        · simp [e]
      · simp only [hk, if_false]
        refine ⟨hnd, ?_⟩
        intro id2
        rw [hiff id2, hget]
        by_cases e : id2 = id
        · subst e
          have hk2 : ¬ index_key_for_value env (d.get f) = k := fun e2 => hk e2.symm
          simp [hd, hk2]
        · simp [e]

theorem removeLoop_consistent (env : Env) (ds : List Json) :
    ∀ (c : Collection) (cnt : Nat), Inv c → Consistent env c →
      (∀ d ∈ ds, ∀ k, idOf d = .ok k → ∀ d2, c.store.get k = some d2 → d2 = d) →
      Consistent env (removeLoop env ds c cnt).2 := by
  induction ds with
  | nil => intro c cnt _ h _; exact h
  | cons d ds ih =>
    intro c cnt hc h hm
    have hrest : ∀ d ∈ ds, ∀ k, idOf d = .ok k → ∀ d2, c.store.get k = some d2 → d2 = d :=
      fun d hd => hm d (List.mem_cons_of_mem _ hd)
    cases hk : idOf d with
    | error e =>
      simp only [removeLoop, hk]
      exact h
    | ok k =>
      cases hg : c.store.get k with
      | none =>
        simp only [removeLoop, hk]
        rw [HashMap.remove_none hg]
        exact ih c cnt hc h hrest
      | some v =>
        have hv : v = d := hm d (List.mem_cons_self _ _) k hk v hg
        subst hv
        obtain ⟨r1, -⟩ := HashMap.remove_some hc.store hg
        have hre : c.store.remove k = (true, (c.store.remove k).2) := Prod.ext r1 rfl
        simp only [removeLoop, hk]
        rw [hre]
        apply ih _ (cnt + 1) (inv_remove_step env hc v k) (consistent_remove_step hc h hg)
        intro d2 hd2 k2 hk2 d3 hd3
        simp only at hd3
        rw [HashMap.get_remove hc.store] at hd3
        by_cases e : k2 = k
        · simp [e] at hd3
        · simp only [e, if_false] at hd3
          exact hrest d2 hd2 k2 hk2 d3 hd3

theorem consistent_remove {env : Env} {c : Collection} (hc : Inv c) (h : Consistent env c)
    (q : Json) : Consistent env (remove env c q).2 := by
  cases hf : find env c q with
  | error e =>
    simp only [remove, hf]
    exact h
  | ok found =>
    simp only [remove, hf]
    apply removeLoop_consistent env found c 0 hc h
    intro d hd k hk d2 hd2
    obtain ⟨k0, hk0⟩ := find_sub hc.store hf hd
    have := idOf_of_stored hc hk0
    rw [hk] at this
    cases this
    rw [hk0] at hd2
    exact (Option.some.inj hd2).symm

theorem consistent_of_reachable {env : Env} {c : Collection} (h : Reachable env c) :
    Consistent env c := by
  induction h with
  | empty => exact consistent_empty env
  | insert id doc hr fresh ih => exact consistent_insert (inv_of_reachable_collection hr) ih id doc fresh
  | remove q hr ih => exact consistent_remove (inv_of_reachable_collection hr) ih q
  | create_index f hr ih => exact consistent_create_index (inv_of_reachable_collection hr) ih f

/-- C18: in every reachable collection (each `insert` drawing an id that is not
in the table) every equality index agrees with the document table: an id is in
the bucket keyed `k` of the index on `f` exactly when the table holds under
that id a document that has `f` with `index_key_for_value(doc[f]) == k`, and it
is there exactly once; after `remove(q)` the id of a document that `find(q)`
returned is in no bucket of any equality index. -/
theorem equality_indexes_consistent (env : Env) {c : Collection} (h : Reachable env c) :
    (∀ f mi, scan c.indexes f = some mi → ∀ k id,
        (id ∈ bucket mi k ↔
          ∃ d, c.store.get id = some d ∧ d.contains f = true ∧
            index_key_for_value env (d.get f) = k) ∧
        (id ∈ bucket mi k → (bucket mi k).count id = 1)) ∧
      (∀ q found, find env c q = .ok found → ∀ d ∈ found, ∀ id, d.get "_id" = .str id →
        ∀ f mi k, scan (remove env c q).2.indexes f = some mi → id ∉ bucket mi k) := by
  have hc := inv_of_reachable_collection h
  constructor
  · intro f mi hs k id
    obtain ⟨hnd, hiff⟩ := consistent_of_reachable h f mi hs k
    exact ⟨hiff id, fun hmem => List.count_eq_one_of_mem hnd hmem⟩
  · intro q found hf d hd id hid f mi k hs hmem
    have h2 := consistent_of_reachable (Reachable.remove q h)
    obtain ⟨d2, hd2, -⟩ := ((h2 f mi hs k).2 id).1 hmem
    obtain ⟨n, c2, e1, -, -, habs, hsub, -⟩ := remove_spec hc hf
    rw [e1] at hd2
    simp only at hd2
    obtain ⟨k0, hk0⟩ := find_sub hc.store hf hd
    have hid0 := get_id_of_stored hc hk0
    rw [hid] at hid0
    cases hid0
    have h3 := hsub id d2 hd2
    rw [hk0] at h3
    cases h3
    exact habs d hd id hd2

/-! ## Concrete instances -/

theorem find_range_operands_witness :
    scan traceAge.btree_indexes "age" = some (BTreeIndex.mk [(30, ["a"])]) ∧
      "age" ≠ "$or" ∧ (Json.obj [("$eq", Json.str "x")]).is_object = true ∧
      ∃ e, find envAll traceAge (.obj [("age", Json.obj [("$eq", Json.str "x")])]) = .error e :=
  ⟨by decide!, by decide, rfl,
   (find_range_operands envAll traceAge "age" (BTreeIndex.mk [(30, ["a"])])
      (Json.obj [("$eq", Json.str "x")]) (by decide!) (by decide) rfl).1
      ⟨Json.str "x", by decide, rfl⟩⟩

theorem find_eq_after_insert_witness :
    scan traceTag.indexes "tag" = some [("s:x", ["1"])] ∧
      scan traceTag.btree_indexes "tag" = none ∧
      scan [("tag", Json.str "y")] "tag" = some (Json.str "y") ∧
      0 < traceTag.store.buckets.length ∧
      ∃ res, find envAll (insert envAll traceTag "2" (.obj [("tag", .str "y")])).2
          (.obj [("tag", .obj [("$eq", .str "y")])]) = .ok res ∧
        Json.obj (setMember [("tag", .str "y")] "_id" (.str "2")) ∈ res :=
  ⟨by decide!, by decide!, by decide, by decide!,
   (find_eq_after_insert envAll traceTag "tag" [("s:x", ["1"])] "2" [("tag", .str "y")]
      (.str "y") (by decide!) (by decide!) (by decide) (by decide) (by decide)
      (by decide!)).2.2.2⟩

/-- C8, as stated, fails: in the trace `insert({"age": 30})`,
`create_index("age")` (a range index), `insert({"age": 45})` with id `"b"`,
`remove({"age": {"$eq": 45}})`, the query `find({"age": {"$eq": 45}})` returns
the empty sequence, not the removed document, although the range index still
lists `"b"` under 45: `find` fetches every id from the document table. -/
theorem find_range_after_remove_counterexample :
    scan traceAge.btree_indexes "age" = some (BTreeIndex.mk [(30, ["a"])]) ∧
      (insert envAll traceAge "b" docAge45).1 = .ok "b" ∧
      find envAll (insert envAll traceAge "b" docAge45).2 queryAge45 =
        .ok [.obj [("_id", .str "b"), ("age", .num 45)]] ∧
      (remove envAll (insert envAll traceAge "b" docAge45).2 queryAge45).1 = .ok 1 ∧
      find envAll (remove envAll (insert envAll traceAge "b" docAge45).2 queryAge45).2
        queryAge45 = .ok [] ∧
      scan (remove envAll (insert envAll traceAge "b" docAge45).2 queryAge45).2.btree_indexes
        "age" = some (BTreeIndex.mk [(30, ["a"]), (45, ["b"])]) := by
  decide!

theorem find_range_after_remove_witness :
    Reachable envAll traceAge ∧
      scan traceAge.btree_indexes "age" = some (BTreeIndex.mk [(30, ["a"])]) ∧
      find envAll (insert envAll traceAge "b" (.obj [("age", .num 45)])).2 queryAge45 =
        .ok [.obj [("_id", .str "b"), ("age", .num 45)]] ∧
      ((∃ res, find envAll
          (remove envAll (insert envAll traceAge "b" (.obj [("age", .num 45)])).2 queryAge45).2
          (.obj [("age", .obj [("$eq", .num 45)])]) = .ok res ∧
        Json.obj (setMember [("age", .num 45)] "_id" (.str "b")) ∉ res) ∧
      scan (remove envAll (insert envAll traceAge "b" (.obj [("age", .num 45)])).2
          queryAge45).2.btree_indexes "age" =
        some ((BTreeIndex.mk [(30, ["a"])]).insert 45 "b")) :=
  ⟨Reachable.create_index "age" (Reachable.insert "a" docAge30 Reachable.empty (by decide!)),
   by decide!, by decide!,
   find_range_after_remove envAll
     (Reachable.create_index "age" (Reachable.insert "a" docAge30 Reachable.empty (by decide!)))
     "age" (BTreeIndex.mk [(30, ["a"])]) (by decide!) (by decide) "b" [("age", .num 45)] 45
     (by decide) queryAge45 [.obj [("_id", .str "b"), ("age", .num 45)]] (by decide!)
     (by decide!)⟩

theorem find_eq_after_remove_witness :
    Reachable envAll traceTag ∧ scan traceTag.btree_indexes "tag" = none ∧
      find envAll (insert envAll traceTag "2" (.obj [("tag", .str "y")])).2
          (.obj [("tag", .obj [("$eq", .str "y")])]) =
        .ok [.obj [("_id", .str "2"), ("tag", .str "y")]] ∧
      ∃ res, find envAll
          (remove envAll (insert envAll traceTag "2" (.obj [("tag", .str "y")])).2
            (.obj [("tag", .obj [("$eq", .str "y")])])).2
          (.obj [("tag", .obj [("$eq", .str "y")])]) = .ok res ∧
        Json.obj (setMember [("tag", .str "y")] "_id" (.str "2")) ∉ res :=
  ⟨Reachable.create_index "tag" (Reachable.insert "1" docTagX Reachable.empty (by decide!)),
   by decide!, by decide!,
   find_eq_after_remove envAll
     (Reachable.create_index "tag" (Reachable.insert "1" docTagX Reachable.empty (by decide!)))
     "tag" (by decide!) "2" [("tag", .str "y")] (.str "y")
     (.obj [("tag", .obj [("$eq", .str "y")])]) [.obj [("_id", .str "2"), ("tag", .str "y")]]
     (by decide!) (by decide!)⟩

theorem remove_count_witness :
    Reachable envAll traceTag ∧
      find envAll traceTag queryTagX = .ok [.obj [("_id", .str "1"), ("tag", .str "x")]] ∧
      ∃ n, (remove envAll traceTag queryTagX).1 = .ok n ∧
        (remove envAll traceTag queryTagX).2.store.size + n = traceTag.store.size ∧
        ∀ d ∈ [Json.obj [("_id", .str "1"), ("tag", .str "x")]], ∀ k,
          (remove envAll traceTag queryTagX).2.store.get k ≠ some d :=
  ⟨Reachable.create_index "tag" (Reachable.insert "1" docTagX Reachable.empty (by decide!)),
   by decide!,
   remove_count envAll
     (Reachable.create_index "tag" (Reachable.insert "1" docTagX Reachable.empty (by decide!)))
     queryTagX [.obj [("_id", .str "1"), ("tag", .str "x")]] (by decide!)⟩

theorem create_index_kind_witness :
    ((insert envAll Collection.empty "1" docTagX).2.store.items.map Prod.fst).Nodup ∧
      (create_index envAll (insert envAll Collection.empty "1" docTagX).2 "tag").btree_indexes =
        (insert envAll Collection.empty "1" docTagX).2.btree_indexes :=
  ⟨by decide!,
   ((create_index_kind envAll (insert envAll Collection.empty "1" docTagX).2 "tag"
      (by decide!)).2 (by decide!)).1⟩

theorem stored_id_is_key_witness :
    Reachable envAll traceTag ∧
      ("1", Json.obj [("_id", .str "1"), ("tag", .str "x")]) ∈ traceTag.store.items ∧
      (Json.obj [("_id", .str "1"), ("tag", .str "x")]).get "_id" = .str "1" :=
  ⟨Reachable.create_index "tag" (Reachable.insert "1" docTagX Reachable.empty (by decide!)),
   by decide!,
   (stored_id_is_key envAll
     (Reachable.create_index "tag"
       (Reachable.insert "1" docTagX Reachable.empty (by decide!)))).1 "1" _ (by decide!)⟩

theorem equality_indexes_consistent_witness :
    Reachable envAll traceTag ∧ scan traceTag.indexes "tag" = some [("s:x", ["1"])] ∧
      ("1" ∈ bucket [("s:x", ["1"])] "s:x" ↔
        ∃ d, traceTag.store.get "1" = some d ∧ d.contains "tag" = true ∧
          index_key_for_value envAll (d.get "tag") = "s:x") :=
  ⟨Reachable.create_index "tag" (Reachable.insert "1" docTagX Reachable.empty (by decide!)),
   by decide!,
   ((equality_indexes_consistent envAll
     (Reachable.create_index "tag"
       (Reachable.insert "1" docTagX Reachable.empty (by decide!)))).1
     "tag" [("s:x", ["1"])] (by decide!) "s:x" "1").1⟩

end Collection

end NoSql
